import Mathlib

/-!
Verification of the dependency-extractor: a shallow embedding of the
declaration indexer, import resolver, pattern matcher, dependency-closure
engine and assembler of `extractPatternWithDependencies`, together with
proofs checking the natural-language specification against it.

The embedding follows the JavaScript source: Babel AST nodes become the
inductive `Ast` (child lists are spine constructors `nil`/`cons`, so the
type stays first-order and decidable); the name-to-record `Map` becomes an
insertion-ordered association list (`mapSet` keeps the position of an
existing key, as `Map.set` does); each `traverse` call becomes a
structural walk emitting the `Map.set` operations in visitor order; the
external parser, pretty-printer and file system are parameters collected
in `Env`.
-/

set_option maxRecDepth 8000

namespace DepExtract

/-- AST node of the JavaScript subset the extractor handles.  Binding
positions (function names, parameters, declarator names, import locals,
method keys, non-computed member properties) are plain strings, so every
`ident` node is a referenced, non-binding identifier, matching the
`isReferencedIdentifier && !isBindingIdentifier` test of the source.
`nil`/`cons` are list spines for statement bodies, call arguments and
declarator lists; `varDtorBare` is a declarator whose `init` is null. -/
inductive Ast where
  | nil
  | cons (head tail : Ast)
  | ident (name : String)
  | lit (value : String)
  | member (obj : Ast) (prop : String)
  | call (callee : Ast) (args : Ast)
  | exprStmt (expr : Ast)
  | funcDecl (name : String) (params : List String) (body : Ast)
  | funcExpr (params : List String) (body : Ast)
  | arrowExpr (params : List String) (body : Ast)
  | varDecl (declarators : Ast)
  | varDtorInit (name : String) (init : Ast)
  | varDtorBare (name : String)
  | classDecl (name : String) (body : Ast)
  | classMethod (name : String) (params : List String) (body : Ast)
  | importDecl (source : String) (locals : List String)
  | exportNamedD (decl : Ast) (specifiers : List String)
  | exportNamedS (specifiers : List String)
  | exportDefault (decl : Ast)
  deriving DecidableEq, Repr

/-- Build a list spine from a Lean list, for writing example programs. -/
def Ast.listOf : List Ast → Ast
  | [] => .nil
  | a :: rest => .cons a (Ast.listOf rest)

/-- Append `x` unless present: the behaviour of `add` on a JS `Set`
(and of the guarded `dependencies.add` in `findDependenciesInNode`). -/
def pushNew {α : Type} [DecidableEq α] (l : List α) (x : α) : List α :=
  if x ∈ l then l else l ++ [x]

/-- Join strings with a separator. -/
def joinSep (sep : String) : List String → String
  | [] => ""
  | [x] => x
  | x :: y :: rest => x ++ sep ++ joinSep sep (y :: rest)

/-- Model of the external pretty-printer `generate` on a single node. -/
def printNode : Ast → String
  | .nil => ""
  | .cons h .nil => printNode h
  | .cons h t => printNode h ++ " " ++ printNode t
  | .ident n => n
  | .lit v => v
  | .member o p => printNode o ++ "." ++ p
  | .call f args => printNode f ++ "(" ++ printNode args ++ ")"
  | .exprStmt e => printNode e ++ ";"
  | .funcDecl n ps b => "function " ++ n ++ "(" ++ joinSep ", " ps ++ ") \x7b " ++ printNode b ++ " \x7d"
  | .funcExpr ps b => "function (" ++ joinSep ", " ps ++ ") \x7b " ++ printNode b ++ " \x7d"
  | .arrowExpr ps b => "(" ++ joinSep ", " ps ++ ") => \x7b " ++ printNode b ++ " \x7d"
  | .varDecl ds => "const " ++ printNode ds ++ ";"
  | .varDtorInit n e => n ++ " = " ++ printNode e
  | .varDtorBare n => n
  | .classDecl n b => "class " ++ n ++ " \x7b " ++ printNode b ++ " \x7d"
  | .classMethod n ps b => n ++ "(" ++ joinSep ", " ps ++ ") \x7b " ++ printNode b ++ " \x7d"
  | .importDecl s locals => "import \x7b " ++ joinSep ", " locals ++ " \x7d from \"" ++ s ++ "\";"
  | .exportNamedD d _ => "export " ++ printNode d
  | .exportNamedS specs => "export \x7b " ++ joinSep ", " specs ++ " \x7d;"
  | .exportDefault d => "export default " ++ printNode d ++ ";"

/-- Print the synthetic output `Program`, one printed node per line: the
final assembly step handed to the pretty-printer. -/
def printProgram (nodes : List Ast) : String :=
  joinSep "\n" (nodes.map printNode)

/-- Substring test used to build concrete pattern predicates (the model of
a regex whose source is a literal string). -/
def containsSubstr (s pat : String) : Bool :=
  decide (pat.toList <:+: s.toList)

/-- Predicate `String.startsWith`, stated on the character lists so that it
computes by structural recursion. -/
def strStartsWith (s pre : String) : Bool :=
  decide (pre.toList <+: s.toList)

/-- One entry of the declaration table (`DeclarationInfo` in the source).
`node` is the subtree emitted when selected, `path` the subtree whose
descendants `findDependenciesInNode` scans (for variables both are the
whole `VariableDeclaration`; for an unwrapped named export `node` is the
inner declaration while `path` is the export statement). -/
structure DeclInfo where
  node : Ast
  type : String
  path : Ast
  source : String
  parentFunction : Option String := none
  depth : Option Nat := none
  className : Option String := none
  originalCode : String
  deriving DecidableEq, Repr

/-- The global declaration table: a JS `Map` as an insertion-ordered
association list. -/
abbrev Table := List (String × DeclInfo)

/-- Model of `Map.set`: overwrite in place if the key exists (keeping its
position), otherwise append. -/
def mapSet (m : Table) (k : String) (v : DeclInfo) : Table :=
  if k ∈ m.map Prod.fst then
    m.map (fun p => if p.1 = k then (k, v) else p)
  else
    m ++ [(k, v)]

/-- Model of `Map.get`: the entry at a key, if any. -/
def mapGet (m : Table) (k : String) : Option DeclInfo :=
  (m.find? (fun p => decide (p.1 = k))).map Prod.snd

/-- Model of `Map.has`. -/
def mapHas (m : Table) (k : String) : Bool :=
  (mapGet m k).isSome

/-- Replay a list of `Map.set` operations. -/
def buildTable (assigns : List (String × DeclInfo)) (start : Table) : Table :=
  assigns.foldl (fun t kv => mapSet t kv.1 kv.2) start

/-- Names collected by `findDependenciesInNode`'s visitors, in visit
order, before the `allDeclarations.has` filter: each `ident` is a
referenced non-binding identifier, and the object of a member expression
is additionally recorded by the `MemberExpression` visitor. -/
def refNames : Ast → List String
  | .nil => []
  | .cons h t => refNames h ++ refNames t
  | .ident n => [n]
  | .lit _ => []
  | .member o _ => (match o with | .ident x => [x] | _ => []) ++ refNames o
  | .call f args => refNames f ++ refNames args
  | .exprStmt e => refNames e
  | .funcDecl _ _ b => refNames b
  | .funcExpr _ b => refNames b
  | .arrowExpr _ b => refNames b
  | .varDecl ds => refNames ds
  | .varDtorInit _ e => refNames e
  | .varDtorBare _ => []
  | .classDecl _ b => refNames b
  | .classMethod _ _ b => refNames b
  | .importDecl _ _ => []
  | .exportNamedD d specs => refNames d ++ specs
  | .exportNamedS specs => specs
  | .exportDefault d => refNames d

/-- Model of `findDependenciesInNode(path, dependencies, allDeclarations)`: scan
the descendants of `path` and add every referenced name that is a key of
the table and not already present. -/
def findDependenciesInNode (tbl : Table) (deps : List String) (path : Ast) : List String :=
  ((refNames path).filter (fun n => mapHas tbl n)).foldl pushNew deps

/-- All `ImportDeclaration` nodes of the tree in traversal order (the
`traverse(ast, { ImportDeclaration(path){...} })` visits). -/
def importNodes : Ast → List Ast
  | .nil => []
  | .cons h t => importNodes h ++ importNodes t
  | .ident _ => []
  | .lit _ => []
  | .member o _ => importNodes o
  | .call f args => importNodes f ++ importNodes args
  | .exprStmt e => importNodes e
  | .funcDecl _ _ b => importNodes b
  | .funcExpr _ b => importNodes b
  | .arrowExpr _ b => importNodes b
  | .varDecl ds => importNodes ds
  | .varDtorInit _ e => importNodes e
  | .varDtorBare _ => []
  | .classDecl _ b => importNodes b
  | .classMethod _ _ b => importNodes b
  | n@(.importDecl _ _) => [n]
  | .exportNamedD d _ => importNodes d
  | .exportNamedS _ => []
  | .exportDefault d => importNodes d

end DepExtract

namespace DepExtract

mutual

/-- The visitors of `findAllDeclarations(ast, declarations, filePath,
sourceCode, parentFunction, depth = 0, className)`, emitting the `Map.set`
operations in Babel's pre-order visit order.  The outer traversal never
calls `path.skip()`, so after a visitor (including the nested-scope scans
it launches) the walk still descends into the node's children. -/
def mainNode (file : String) (pf : Option String) (depth : Nat) (cls : Option String) : Ast → List (String × DeclInfo)
  | .nil => []
  | .cons h t => mainNode file pf depth cls h ++ mainNode file pf depth cls t
  | .ident _ => []
  | .lit _ => []
  | .member o _ => mainNode file pf depth cls o
  | .call f args => mainNode file pf depth cls f ++ mainNode file pf depth cls args
  | .exprStmt e => mainNode file pf depth cls e
  | n@(.funcDecl name _ body) =>
      [(name, { node := n,
                type := if pf.isSome then "nested-function" else "function",
                path := n, source := file,
                parentFunction := pf,
                depth := if pf.isSome then some depth else none,
                className := cls,
                originalCode := printNode n })]
      ++ scopeNode file name (depth + 1) cls body
      ++ mainNode file pf depth cls body
  | .funcExpr _ b => mainNode file pf depth cls b
  | .arrowExpr _ b => mainNode file pf depth cls b
  | n@(.varDecl ds) => mainDtors file pf depth cls n ds
  | .varDtorInit _ e => mainNode file pf depth cls e
  | .varDtorBare _ => []
  | n@(.classDecl name body) =>
      [(name, { node := n, type := "class", path := n, source := file,
                parentFunction := pf,
                depth := if pf.isSome then some depth else none,
                className := none,
                originalCode := printNode n })]
      ++ cmNode file name depth body
      ++ mainNode file pf depth cls body
  | n@(.classMethod name _ body) =>
      (match cls with
       | some c =>
         let info : DeclInfo :=
           { node := n, type := "method", path := n, source := file,
             className := some c,
             parentFunction := pf,
             depth := if pf.isSome then some depth else none,
             originalCode := printNode n }
         [(c ++ "." ++ name, info), (name, info)]
         ++ scopeNode file name (depth + 1) (some c) body
       | none => [])
      ++ mainNode file pf depth cls body
  | .importDecl _ _ => []
  | n@(.exportNamedD d specs) =>
      (match d with
       | .funcDecl nm _ _ =>
           [(nm, { node := d, type := "function", path := n, source := file,
                   parentFunction := pf,
                   depth := if pf.isSome then some depth else none,
                   className := cls,
                   originalCode := printNode n })]
       | .classDecl nm _ =>
           [(nm, { node := d, type := "class", path := n, source := file,
                   parentFunction := pf,
                   depth := if pf.isSome then some depth else none,
                   className := cls,
                   originalCode := printNode n })]
       | .varDecl dtors =>
           (match dtors with
            | .cons (.varDtorInit nm (.arrowExpr p b)) _ =>
                [(nm, { node := .varDecl dtors, type := "arrow-function", path := n, source := file,
                        parentFunction := pf,
                        depth := if pf.isSome then some depth else none,
                        className := cls,
                        originalCode := printNode n })]
            | .cons (.varDtorInit nm _) _ =>
                [(nm, { node := .varDecl dtors, type := "variable", path := n, source := file,
                        parentFunction := pf,
                        depth := if pf.isSome then some depth else none,
                        className := cls,
                        originalCode := printNode n })]
            | .cons (.varDtorBare nm) _ =>
                [(nm, { node := .varDecl dtors, type := "variable", path := n, source := file,
                        parentFunction := pf,
                        depth := if pf.isSome then some depth else none,
                        className := cls,
                        originalCode := printNode n })]
            | _ => [])
       | _ => [])
      ++ specs.map (fun s =>
           (s, { node := n, type := "named-export", path := n, source := file,
                 originalCode := printNode n }))
      ++ mainNode file pf depth cls d
  | n@(.exportNamedS specs) =>
      specs.map (fun s =>
        (s, { node := n, type := "named-export", path := n, source := file,
              originalCode := printNode n }))
  | n@(.exportDefault d) =>
      let oc := printNode n
      let nmty : String × String :=
        match d with
        | .funcDecl dn _ _ => (dn, "function")
        | .classDecl dn _ => (dn, "class")
        | .ident x => (x, "default-export")
        | _ => ("default", "default-export")
      let info : DeclInfo :=
        { node := n, type := nmty.2, path := n, source := file, originalCode := oc }
      [(nmty.1, info), ("default", info)]
      ++ mainNode file pf depth cls d
termination_by structural a => a

/-- The `VariableDeclarator` visits of the outer traversal: the record's
`node` is `path.parent` (the whole `VariableDeclaration`), the type is
`arrow-function` only for an arrow initializer, and a `FunctionExpression`
initializer launches `findNestedPatternsInExpression` before the walk
descends into the initializer itself. -/
def mainDtors (file : String) (pf : Option String) (depth : Nat) (cls : Option String) (parent : Ast) : Ast → List (String × DeclInfo)
  | .nil => []
  | .cons d rest =>
      (match d with
       | .varDtorInit name init =>
           [(name, { node := parent,
                     type := match init with | .arrowExpr _ _ => "arrow-function" | _ => "variable",
                     path := parent, source := file,
                     parentFunction := pf,
                     depth := if pf.isSome then some depth else none,
                     className := cls,
                     originalCode := printNode parent })]
           ++ (match init with
               | .funcExpr _ fb => exprScopeNode file name (depth + 1) cls fb
               | _ => [])
           ++ mainNode file pf depth cls init
       | .varDtorBare name =>
           [(name, { node := parent, type := "variable", path := parent, source := file,
                     parentFunction := pf,
                     depth := if pf.isSome then some depth else none,
                     className := cls,
                     originalCode := printNode parent })]
       | other => mainNode file pf depth cls other)
      ++ mainDtors file pf depth cls parent rest
  | _ => []
termination_by structural a => a

/-- Model of `findNestedPatternsInScope(scopePath, declarations, filePath,
sourceCode, parentName, depth, className)`, as the walk over the scope's
descendants: nested function declarations and nested classes are recorded
and then skipped (`path.skip()`), declarators with an initializer are
recorded and the walk continues into the initializer. -/
def scopeNode (file : String) (pn : String) (depth : Nat) (cls : Option String) : Ast → List (String × DeclInfo)
  | .nil => []
  | .cons h t => scopeNode file pn depth cls h ++ scopeNode file pn depth cls t
  | .ident _ => []
  | .lit _ => []
  | .member o _ => scopeNode file pn depth cls o
  | .call f args => scopeNode file pn depth cls f ++ scopeNode file pn depth cls args
  | .exprStmt e => scopeNode file pn depth cls e
  | n@(.funcDecl name _ body) =>
      [(name, { node := n, type := "nested-function", path := n, source := file,
                parentFunction := some pn, depth := some depth, className := cls,
                originalCode := printNode n })]
      ++ scopeNode file name (depth + 1) cls body
  | .funcExpr _ b => scopeNode file pn depth cls b
  | .arrowExpr _ b => scopeNode file pn depth cls b
  | n@(.varDecl ds) => scopeDtors file pn depth cls n ds
  | .varDtorInit _ e => scopeNode file pn depth cls e
  | .varDtorBare _ => []
  | n@(.classDecl name body) =>
      [(name, { node := n, type := "class", path := n, source := file,
                parentFunction := some pn, depth := some depth, className := none,
                originalCode := printNode n })]
      ++ cmNode file name (depth + 1) body
  | .classMethod _ _ b => scopeNode file pn depth cls b
  | .importDecl _ _ => []
  | .exportNamedD d _ => scopeNode file pn depth cls d
  | .exportNamedS _ => []
  | .exportDefault d => scopeNode file pn depth cls d
termination_by structural a => a

/-- The `VariableDeclarator` visits of `findNestedPatternsInScope`: only
declarators with an initializer are recorded (`name && path.node.init`);
a function or arrow initializer makes the type `nested-function`, and a
`FunctionExpression` initializer launches the expression scan. -/
def scopeDtors (file : String) (pn : String) (depth : Nat) (cls : Option String) (parent : Ast) : Ast → List (String × DeclInfo)
  | .nil => []
  | .cons d rest =>
      (match d with
       | .varDtorInit name init =>
           [(name, { node := parent,
                     type := match init with
                             | .funcExpr _ _ => "nested-function"
                             | .arrowExpr _ _ => "nested-function"
                             | _ => "variable",
                     path := parent, source := file,
                     parentFunction := some pn, depth := some depth, className := cls,
                     originalCode := printNode parent })]
           ++ (match init with
               | .funcExpr _ fb => exprScopeNode file name (depth + 1) cls fb
               | _ => [])
           ++ scopeNode file pn depth cls init
       | .varDtorBare _ => []
       | other => scopeNode file pn depth cls other)
      ++ scopeDtors file pn depth cls parent rest
  | _ => []
termination_by structural a => a

/-- Model of `findNestedPatternsInExpression(expressionPath, declarations,
filePath, sourceCode, parentName, depth, className)`: function
declarations are recorded then skipped; declarators with an initializer
are recorded (no further expression scan) and the walk continues. -/
def exprScopeNode (file : String) (pn : String) (depth : Nat) (cls : Option String) : Ast → List (String × DeclInfo)
  | .nil => []
  | .cons h t => exprScopeNode file pn depth cls h ++ exprScopeNode file pn depth cls t
  | .ident _ => []
  | .lit _ => []
  | .member o _ => exprScopeNode file pn depth cls o
  | .call f args => exprScopeNode file pn depth cls f ++ exprScopeNode file pn depth cls args
  | .exprStmt e => exprScopeNode file pn depth cls e
  | n@(.funcDecl name _ body) =>
      [(name, { node := n, type := "nested-function", path := n, source := file,
                parentFunction := some pn, depth := some depth, className := cls,
                originalCode := printNode n })]
      ++ scopeNode file name (depth + 1) cls body
  | .funcExpr _ b => exprScopeNode file pn depth cls b
  | .arrowExpr _ b => exprScopeNode file pn depth cls b
  | n@(.varDecl ds) => exprScopeDtors file pn depth cls n ds
  | .varDtorInit _ e => exprScopeNode file pn depth cls e
  | .varDtorBare _ => []
  | .classDecl _ b => exprScopeNode file pn depth cls b
  | .classMethod _ _ b => exprScopeNode file pn depth cls b
  | .importDecl _ _ => []
  | .exportNamedD d _ => exprScopeNode file pn depth cls d
  | .exportNamedS _ => []
  | .exportDefault d => exprScopeNode file pn depth cls d
termination_by structural a => a

/-- The `VariableDeclarator` visits of `findNestedPatternsInExpression`. -/
def exprScopeDtors (file : String) (pn : String) (depth : Nat) (cls : Option String) (parent : Ast) : Ast → List (String × DeclInfo)
  | .nil => []
  | .cons d rest =>
      (match d with
       | .varDtorInit name init =>
           [(name, { node := parent,
                     type := match init with
                             | .funcExpr _ _ => "nested-function"
                             | .arrowExpr _ _ => "nested-function"
                             | _ => "variable",
                     path := parent, source := file,
                     parentFunction := some pn, depth := some depth, className := cls,
                     originalCode := printNode parent })]
           ++ exprScopeNode file pn depth cls init
       | .varDtorBare _ => []
       | other => exprScopeNode file pn depth cls other)
      ++ exprScopeDtors file pn depth cls parent rest
  | _ => []
termination_by structural a => a

/-- Model of `findClassMethods(classPath, declarations, filePath, sourceCode,
className, depth)`: every `ClassMethod` among the class's descendants is
stored under both the composite `ClassName.methodName` key and the bare
`methodName` key (same record), its body is scanned as a nested scope at
`depth + 1`, and the method node is then skipped. -/
def cmNode (file : String) (clsName : String) (depth : Nat) : Ast → List (String × DeclInfo)
  | .nil => []
  | .cons h t => cmNode file clsName depth h ++ cmNode file clsName depth t
  | .ident _ => []
  | .lit _ => []
  | .member o _ => cmNode file clsName depth o
  | .call f args => cmNode file clsName depth f ++ cmNode file clsName depth args
  | .exprStmt e => cmNode file clsName depth e
  | .funcDecl _ _ b => cmNode file clsName depth b
  | .funcExpr _ b => cmNode file clsName depth b
  | .arrowExpr _ b => cmNode file clsName depth b
  | .varDecl ds => cmNode file clsName depth ds
  | .varDtorInit _ e => cmNode file clsName depth e
  | .varDtorBare _ => []
  | .classDecl _ b => cmNode file clsName depth b
  | n@(.classMethod name _ body) =>
      let info : DeclInfo :=
        { node := n, type := "method", path := n, source := file,
          className := some clsName, originalCode := printNode n }
      [(clsName ++ "." ++ name, info), (name, info)]
      ++ scopeNode file name (depth + 1) (some clsName) body
  | .importDecl _ _ => []
  | .exportNamedD d _ => cmNode file clsName depth d
  | .exportNamedS _ => []
  | .exportDefault d => cmNode file clsName depth d
termination_by structural a => a

end

/-- The function `findAllDeclarations` run from the top of a file: no enclosing
function, depth 0, no enclosing class, starting from an empty map. -/
def findAllDeclarations (file : String) (prog : Ast) : Table :=
  buildTable (mainNode file none 0 none prog) []

end DepExtract

namespace DepExtract

/-- The fixed extension list of `resolveImportPath`. -/
def extensions : List String := [".js", ".ts", ".jsx", ".tsx", ".mjs"]

/-- External collaborators: parser (`@babel/parser` plus `readFileSync`
for imported files), file system predicates, `path` operations and the
host resolver `require.resolve`.  `parseSource` parses the entry text;
`fileAst` reads and parses a file by path, `none` meaning a read or parse
failure; `hostResolve specifier baseDir` is `require.resolve(specifier,
{ paths: [baseDir] })`, `none` meaning it threw. -/
structure Env where
  parseSource : String → Option Ast
  fileAst : String → Option Ast
  existsSync : String → Bool
  isRegularFile : String → Bool
  hostResolve : String → String → Option String
  dirname : String → String
  resolvePath : String → String → String
  joinIndex : String → String

/-- Model of `resolveImportPath(importPath, currentFilePath)`: for a relative
specifier try the literal path (must exist and be a regular file), then
each extension appended, then `index` + each extension under the path;
any miss (and any bare specifier) falls through to the host resolver,
whose failure yields `none` (the source's `null`). -/
def resolveImportPath (env : Env) (importPath currentFilePath : String) : Option String :=
  let baseDir := env.dirname currentFilePath
  let fromRel : Option String :=
    if strStartsWith importPath "./" || strStartsWith importPath "../" then
      let basePath := env.resolvePath baseDir importPath
      if env.existsSync basePath && env.isRegularFile basePath then
        some basePath
      else
        match extensions.findSome? (fun ext =>
            if env.existsSync (basePath ++ ext) then some (basePath ++ ext) else none) with
        | some p => some p
        | none =>
            extensions.findSome? (fun ext =>
              if env.existsSync (env.joinIndex basePath ++ ext) then
                some (env.joinIndex basePath ++ ext)
              else none)
    else none
  match fromRel with
  | some p => some p
  | none => env.hostResolve importPath baseDir

/-- Model of `parseFile(filePath)`: read and parse the file, then run
`findAllDeclarations` over it into a fresh map; `none` models the caught
read/parse failure (the function returns `null`). -/
def parseFile (env : Env) (filePath : String) : Option Table :=
  (env.fileAst filePath).map (fun prog => findAllDeclarations filePath prog)

/-- State threaded through the `ImportDeclaration` visitor pass of
`extractPatternWithDependencies`. -/
structure ImportState where
  table : Table
  resolved : List String
  unresolved : List String
  deriving Repr

/-- The unresolved branch of the `ImportDeclaration` visitor: push the
specifier onto `unresolvedImports` and register every bound local name as
an `import`-kind fallback record pointing at the import statement. -/
def importFallback (cur : String) (st : ImportState) (n : Ast) (src : String)
    (locals : List String) : ImportState :=
  { st with
    unresolved := st.unresolved ++ [src],
    table := locals.foldl
      (fun g l => mapSet g l
        { node := n, type := "import", path := n, source := cur,
          originalCode := printNode n })
      st.table }

/-- One `ImportDeclaration` visit: resolve the specifier; on success (and
when the target is not the current file) push it onto `resolvedImports`
and merge the parsed target's declarations into the global table
(`Map.set` per entry, skipped entirely when `parseFile` failed);
otherwise take the unresolved branch. -/
def processImport (env : Env) (cur : String) (st : ImportState) (n : Ast) : ImportState :=
  match n with
  | .importDecl src locals =>
    match resolveImportPath env src cur with
    | some p =>
      if p ≠ cur then
        let st1 := { st with resolved := st.resolved ++ [src] }
        match parseFile env p with
        | some fileTbl =>
            { st1 with table := fileTbl.foldl (fun g kv => mapSet g kv.1 kv.2) st1.table }
        | none => st1
      else importFallback cur st n src locals
    | none => importFallback cur st n src locals
  | _ => st

/-- The table-building prefix of `extractPatternWithDependencies`:
`findAllDeclarations` over the entry program, then the
`ImportDeclaration` traversal. -/
def buildGlobalTable (env : Env) (cur : String) (prog : Ast) : ImportState :=
  (importNodes prog).foldl (processImport env cur)
    { table := findAllDeclarations cur prog, resolved := [], unresolved := [] }

/-- One element of `metadata.matchDetails`. -/
structure MatchDetail where
  name : String
  type : String
  parentFunction : Option String
  className : Option String
  depth : Nat
  codeSnippet : String
  deriving DecidableEq, Repr

/-- The detail pushed for a matched record: `depth || 0` and the
200-character snippet. -/
def mkDetail (name : String) (d : DeclInfo) : MatchDetail :=
  { name := name, type := d.type,
    parentFunction := d.parentFunction,
    className := d.className,
    depth := d.depth.getD 0,
    codeSnippet :=
      if d.originalCode.length > 200 then d.originalCode.take 200 ++ "..." else d.originalCode }

/-- State accumulated by the seed-selection loop
(`globalDeclarations.forEach`). -/
structure SeedState where
  matched : List String
  matchDetails : List MatchDetail
  deps : List String
  nodes : List Ast
  deriving Repr

/-- The `declaration.type === "nested-function" && declaration.parentFunction`
inclusion rule shared by the seed loop and the fixpoint loop: add the
parent function's node when it is in the table. -/
def includeParentNode (tbl : Table) (d : DeclInfo) (nodes : List Ast) : List Ast :=
  if d.type = "nested-function" then
    match d.parentFunction with
    | some p =>
      match mapGet tbl p with
      | some pd => pushNew nodes pd.node
      | none => nodes
    | none => nodes
  else nodes

/-- The `declaration.className` inclusion rule of the seed loop: add the
enclosing class's node when it is in the table. -/
def includeClassNode (tbl : Table) (d : DeclInfo) (nodes : List Ast) : List Ast :=
  match d.className with
  | some c =>
    match mapGet tbl c with
    | some cd => pushNew nodes cd.node
    | none => nodes
  | none => nodes

/-- One iteration of the seed loop: test the pattern against the record's
`originalCode`; on a match record the name and detail, include the parent
function's node (for a nested function with a parent), the enclosing
class's node (for a record with a `className`), and the record's own
node, then scan the record's path for dependencies. -/
def seedStep (tbl : Table) (pat : String → Bool) (st : SeedState)
    (entry : String × DeclInfo) : SeedState :=
  match entry with
  | (name, d) =>
    if pat d.originalCode then
      { matched := pushNew st.matched name,
        matchDetails := st.matchDetails ++ [mkDetail name d],
        deps := findDependenciesInNode tbl st.deps d.path,
        nodes := pushNew (includeClassNode tbl d (includeParentNode tbl d st.nodes)) d.node }
    else st

/-- The full seed-selection loop over the global table in insertion
order. -/
def seedPhase (tbl : Table) (pat : String → Bool) : SeedState :=
  tbl.foldl (seedStep tbl pat) { matched := [], matchDetails := [], deps := [], nodes := [] }

/-- The `dependencies` set and `nodesToInclude` set evolved by the
fixpoint loop. -/
structure ClosureState where
  deps : List String
  nodes : List Ast
  deriving Repr

/-- Processing of one dependency name inside a fixpoint pass: look it up;
unless the record's kind is `import`, include its node, include the
parent function's node for a nested function, and scan its path for
further dependencies. -/
def processDep (tbl : Table) (st : ClosureState) (depName : String) : ClosureState :=
  match mapGet tbl depName with
  | some d =>
    if d.type ≠ "import" then
      { deps := findDependenciesInNode tbl st.deps d.path,
        nodes := includeParentNode tbl d (pushNew st.nodes d.node) }
    else st
  | none => st

/-- One full pass of the fixpoint loop: iterate over the snapshot
`Array.from(dependencies)` taken at the start of the pass. -/
def passOnce (tbl : Table) (st : ClosureState) : ClosureState :=
  st.deps.foldl (processDep tbl) st

/-- The `while (currentDepsCount > previousDepsCount)` loop, with
explicit fuel (the caller passes `tbl.length + 1`, which the C4 theorem
proves sufficient): returns the iteration count and the final state. -/
def depLoop (tbl : Table) : Nat → Nat → ClosureState → Nat × ClosureState
  | 0, _, st => (0, st)
  | fuel + 1, prev, st =>
    if st.deps.length > prev then
      let st1 := passOnce tbl st
      let r := depLoop tbl fuel st.deps.length st1
      (r.1 + 1, r.2)
    else (0, st)

/-- The unresolved-import retention loop: for every unresolved specifier,
re-traverse the entry program's import statements and include each whose
source matches and which binds at least one local name present in the
final dependency set. -/
def retentionStep (deps : List String) (imp : String) (ns2 : List Ast) (node : Ast) : List Ast :=
  match node with
  | .importDecl s locals =>
    if s = imp then
      if locals.any (fun l => decide (l ∈ deps)) then pushNew ns2 node else ns2
    else ns2
  | _ => ns2

def retentionPhase (prog : Ast) (unresolved deps : List String) (nodes : List Ast) : List Ast :=
  unresolved.foldl
    (fun ns imp => (importNodes prog).foldl (retentionStep deps imp) ns)
    nodes

/-- The `metadata` object of an `ExtractionResult`.  The early no-match return has
no `iterationsRequired` property, hence the `Option`. -/
structure Metadata where
  matchedPatterns : List String
  dependencies : List String
  totalNodesIncluded : Nat
  resolvedImports : List String
  unresolvedImports : List String
  matchDetails : List MatchDetail
  iterationsRequired : Option Nat
  originalCodeLength : Nat
  extractedCodeLength : Nat
  deriving Repr

/-- The structured result returned to the caller. -/
structure ExtractionResult where
  success : Bool
  message : String
  finalCode : String
  metadata : Metadata
  deriving Repr

/-- Model of `extractPatternWithDependencies(sourceCode, patternRegex,
currentFilePath)`: parse the entry text (an entry parse failure throws,
modelled as `Except.error`), build the global table, select seeds, return
the explicit failure result when nothing matched, otherwise run the
dependency-closure fixpoint, retain used unresolved imports, and print the
final node set.  The regex is modelled as its `test` predicate. -/
def extractPatternWithDependencies (env : Env) (sourceCode : String)
    (pat : String → Bool) (currentFilePath : String) : Except String ExtractionResult :=
  match env.parseSource sourceCode with
  | none => .error "Parse error"
  | some prog =>
    let ist := buildGlobalTable env currentFilePath prog
    let sd := seedPhase ist.table pat
    if sd.matched.isEmpty then
      .ok { success := false,
            message := "No patterns found matching regex",
            finalCode := "",
            metadata :=
              { matchedPatterns := [], dependencies := [], totalNodesIncluded := 0,
                resolvedImports := ist.resolved, unresolvedImports := ist.unresolved,
                matchDetails := [], iterationsRequired := none,
                originalCodeLength := sourceCode.length, extractedCodeLength := 0 } }
    else
      let r := depLoop ist.table (ist.table.length + 1) 0 { deps := sd.deps, nodes := sd.nodes }
      let finalNodes := retentionPhase prog ist.unresolved r.2.deps r.2.nodes
      let finalCode := printProgram finalNodes
      .ok { success := true,
            message := "Successfully extracted " ++ toString sd.matched.length
              ++ " pattern(s) with " ++ toString r.2.deps.length ++ " dependencies",
            finalCode := finalCode,
            metadata :=
              { matchedPatterns := sd.matched, dependencies := r.2.deps,
                totalNodesIncluded := finalNodes.length,
                resolvedImports := ist.resolved, unresolvedImports := ist.unresolved,
                matchDetails := sd.matchDetails, iterationsRequired := some r.1,
                originalCodeLength := sourceCode.length,
                extractedCodeLength := finalCode.length } }

end DepExtract

namespace DepExtract

section Lemmas

variable {α : Type} [DecidableEq α]

theorem mem_pushNew {l : List α} {x y : α} : x ∈ pushNew l y ↔ x ∈ l ∨ x = y := by
  unfold pushNew
  split
  · constructor
    · exact fun h => Or.inl h
    · rintro (h | rfl) <;> assumption
  · simp [List.mem_append]

theorem pushNew_extends {l : List α} {y : α} : l <+: pushNew l y := by
  unfold pushNew
  split
  · exact List.prefix_refl l
  · exact List.prefix_append l [y]

theorem pushNew_nodup {l : List α} {y : α} (h : l.Nodup) : (pushNew l y).Nodup := by
  unfold pushNew
  split
  · exact h
  · rename_i hy
    rw [List.nodup_append]
    refine ⟨h, List.nodup_singleton y, ?_⟩
    intro a ha hay
    rw [List.mem_singleton] at hay
    exact hy (hay ▸ ha)

theorem foldl_pushNew_extends (names : List α) (l : List α) :
    l <+: names.foldl pushNew l := by
  induction names generalizing l with
  | nil => exact List.prefix_refl l
  | cons n rest ih => exact List.IsPrefix.trans pushNew_extends (ih (pushNew l n))

theorem mem_foldl_pushNew {names : List α} {l : List α} {x : α} :
    x ∈ names.foldl pushNew l ↔ x ∈ l ∨ x ∈ names := by
  induction names generalizing l with
  | nil => simp
  | cons n rest ih =>
    simp only [List.foldl_cons, ih, mem_pushNew, List.mem_cons]
    tauto

theorem foldl_pushNew_nodup {names : List α} {l : List α} (h : l.Nodup) :
    (names.foldl pushNew l).Nodup := by
  induction names generalizing l with
  | nil => exact h
  | cons n rest ih => exact ih (pushNew_nodup h)

theorem findDependenciesInNode_extends (tbl : Table) (deps : List String) (p : Ast) :
    deps <+: findDependenciesInNode tbl deps p :=
  foldl_pushNew_extends _ deps

theorem mem_findDependenciesInNode {tbl : Table} {deps : List String} {p : Ast} {x : String} :
    x ∈ findDependenciesInNode tbl deps p ↔ x ∈ deps ∨ (x ∈ refNames p ∧ mapHas tbl x = true) := by
  unfold findDependenciesInNode
  rw [mem_foldl_pushNew, List.mem_filter]

theorem findDependenciesInNode_nodup {tbl : Table} {deps : List String} {p : Ast}
    (h : deps.Nodup) : (findDependenciesInNode tbl deps p).Nodup :=
  foldl_pushNew_nodup h

end Lemmas

/-- Keys of a table are pairwise distinct (a JS `Map` invariant). -/
def keysNodup (m : Table) : Prop := (m.map Prod.fst).Nodup

theorem mapSet_keys (m : Table) (k : String) (v : DeclInfo) :
    (mapSet m k v).map Prod.fst = if k ∈ m.map Prod.fst then m.map Prod.fst else m.map Prod.fst ++ [k] := by
  unfold mapSet
  split
  · rw [List.map_map]
    apply List.map_congr_left
    intro p _
    by_cases h : p.1 = k <;> simp [h]
  · simp

theorem mapSet_keysNodup {m : Table} {k : String} {v : DeclInfo} (h : keysNodup m) :
    keysNodup (mapSet m k v) := by
  unfold keysNodup
  rw [mapSet_keys]
  split
  · exact h
  · rename_i hk
    rw [List.nodup_append]
    refine ⟨h, List.nodup_singleton k, ?_⟩
    intro a ha hak
    rw [List.mem_singleton] at hak
    exact hk (hak ▸ ha)

theorem buildTable_keysNodup {assigns : List (String × DeclInfo)} {start : Table}
    (h : keysNodup start) : keysNodup (buildTable assigns start) := by
  unfold buildTable
  induction assigns generalizing start with
  | nil => exact h
  | cons kv rest ih => exact ih (mapSet_keysNodup h)

theorem findAllDeclarations_keysNodup (file : String) (prog : Ast) :
    keysNodup (findAllDeclarations file prog) :=
  buildTable_keysNodup (by simp [keysNodup])

theorem foldl_mapSet_keysNodup {l : List (String × DeclInfo)} {m : Table} (h : keysNodup m) :
    keysNodup (l.foldl (fun g kv => mapSet g kv.1 kv.2) m) := by
  induction l generalizing m with
  | nil => exact h
  | cons kv rest ih => exact ih (mapSet_keysNodup h)

theorem foldl_mapSet_const_keysNodup {locals : List String} {m : Table}
    (f : String → DeclInfo) (h : keysNodup m) :
    keysNodup (locals.foldl (fun g l => mapSet g l (f l)) m) := by
  induction locals generalizing m with
  | nil => exact h
  | cons l rest ih => exact ih (mapSet_keysNodup h)

theorem importFallback_keysNodup {cur : String} {st : ImportState} {n : Ast} {src : String}
    {locals : List String} (h : keysNodup st.table) :
    keysNodup (importFallback cur st n src locals).table := by
  unfold importFallback
  exact foldl_mapSet_const_keysNodup
    (fun _ => { node := n, type := "import", path := n, source := cur, originalCode := printNode n }) h

theorem processImport_keysNodup {env : Env} {cur : String} {st : ImportState} {n : Ast}
    (h : keysNodup st.table) : keysNodup (processImport env cur st n).table := by
  unfold processImport
  match n with
  | .importDecl src locals =>
    simp only
    cases resolveImportPath env src cur with
    | none => exact importFallback_keysNodup h
    | some p =>
      simp only
      split
      · cases parseFile env p with
        | none => exact h
        | some fileTbl => exact foldl_mapSet_keysNodup h
      · exact importFallback_keysNodup h
  | .nil => exact h
  | .cons a b => exact h
  | .ident s => exact h
  | .lit s => exact h
  | .member o pr => exact h
  | .call f args => exact h
  | .exprStmt e => exact h
  | .funcDecl a b c => exact h
  | .funcExpr a b => exact h
  | .arrowExpr a b => exact h
  | .varDecl ds => exact h
  | .varDtorInit a b => exact h
  | .varDtorBare a => exact h
  | .classDecl a b => exact h
  | .classMethod a b c => exact h
  | .exportNamedD a b => exact h
  | .exportNamedS a => exact h
  | .exportDefault a => exact h

theorem buildGlobalTable_keysNodup (env : Env) (cur : String) (prog : Ast) :
    keysNodup (buildGlobalTable env cur prog).table := by
  unfold buildGlobalTable
  generalize importNodes prog = imps
  have h0 : keysNodup (findAllDeclarations cur prog) := findAllDeclarations_keysNodup cur prog
  generalize hst : ({ table := findAllDeclarations cur prog, resolved := [], unresolved := [] } : ImportState) = st
  have hst' : keysNodup st.table := by rw [← hst]; exact h0
  clear hst h0
  induction imps generalizing st with
  | nil => exact hst'
  | cons n rest ih => exact ih _ (processImport_keysNodup hst')

end DepExtract

namespace DepExtract

theorem mapGet_isSome_iff {m : Table} {k : String} :
    (mapGet m k).isSome = true ↔ k ∈ m.map Prod.fst := by
  unfold mapGet
  constructor
  · intro h
    cases hf : m.find? (fun p => decide (p.1 = k)) with
    | none => rw [hf] at h; simp at h
    | some q =>
      have hq := List.find?_some hf
      have hqm := List.mem_of_find?_eq_some hf
      rw [decide_eq_true_eq] at hq
      exact hq ▸ List.mem_map_of_mem Prod.fst hqm
  · intro h
    rw [List.mem_map] at h
    obtain ⟨q, hqm, hqk⟩ := h
    cases hf : m.find? (fun p => decide (p.1 = k)) with
    | none =>
      have := List.find?_eq_none.mp hf q hqm
      rw [hqk] at this
      simp at this
    | some q' => rfl

theorem mapGet_mem {m : Table} {k : String} {v : DeclInfo} (h : mapGet m k = some v) :
    (k, v) ∈ m := by
  unfold mapGet at h
  induction m with
  | nil => simp at h
  | cons p rest ih =>
    rw [List.find?_cons] at h
    by_cases hp : p.1 = k
    · rw [decide_eq_true hp] at h
      obtain ⟨p1, p2⟩ := p
      simp only at hp
      simp at h
      subst hp
      subst h
      exact List.mem_cons_self _ _
    · rw [decide_eq_false hp] at h
      exact List.mem_cons_of_mem p (ih h)

theorem mem_mapGet {m : Table} {k : String} {v : DeclInfo}
    (hn : keysNodup m) (h : (k, v) ∈ m) : mapGet m k = some v := by
  unfold mapGet
  induction m with
  | nil => simp at h
  | cons p rest ih =>
    rw [List.mem_cons] at h
    rw [List.find?_cons]
    rcases h with rfl | h
    · simp
    · have hk : p.1 ≠ k := by
        intro hpk
        unfold keysNodup at hn
        rw [List.map_cons, List.nodup_cons] at hn
        exact hn.1 (hpk ▸ List.mem_map_of_mem Prod.fst h)
      rw [decide_eq_false hk]
      have hn' : keysNodup rest := by
        unfold keysNodup at hn ⊢
        rw [List.map_cons, List.nodup_cons] at hn
        exact hn.2
      exact ih hn' h

theorem includeParentNode_extends (tbl : Table) (d : DeclInfo) (nodes : List Ast) :
    nodes <+: includeParentNode tbl d nodes := by
  unfold includeParentNode
  repeat' split
  all_goals first | exact pushNew_extends | exact List.prefix_refl _

theorem includeClassNode_extends (tbl : Table) (d : DeclInfo) (nodes : List Ast) :
    nodes <+: includeClassNode tbl d nodes := by
  unfold includeClassNode
  repeat' split
  all_goals first | exact pushNew_extends | exact List.prefix_refl _

theorem includeClassNode_mem {tbl : Table} {d : DeclInfo} {nodes : List Ast}
    {c : String} {cd : DeclInfo} (hc : d.className = some c)
    (hcd : mapGet tbl c = some cd) : cd.node ∈ includeClassNode tbl d nodes := by
  unfold includeClassNode
  simp only [hc, hcd]
  rw [mem_pushNew]
  exact Or.inr rfl

theorem seedStep_matched (tbl : Table) (pat : String → Bool) (st : SeedState)
    (e : String × DeclInfo) :
    (seedStep tbl pat st e).matched =
      if pat e.2.originalCode then pushNew st.matched e.1 else st.matched := by
  obtain ⟨k, d⟩ := e
  unfold seedStep
  by_cases h : pat d.originalCode = true <;> simp [h]

theorem seedStep_deps (tbl : Table) (pat : String → Bool) (st : SeedState)
    (e : String × DeclInfo) :
    (seedStep tbl pat st e).deps =
      if pat e.2.originalCode then findDependenciesInNode tbl st.deps e.2.path else st.deps := by
  obtain ⟨k, d⟩ := e
  unfold seedStep
  by_cases h : pat d.originalCode = true <;> simp [h]

theorem seedStep_nodes_extends (tbl : Table) (pat : String → Bool) (st : SeedState)
    (e : String × DeclInfo) : st.nodes <+: (seedStep tbl pat st e).nodes := by
  obtain ⟨k, d⟩ := e
  unfold seedStep
  by_cases h : pat d.originalCode = true <;> simp only [h, if_true, if_false, Bool.false_eq_true]
  · exact ((includeParentNode_extends tbl d st.nodes).trans
      (includeClassNode_extends tbl d _)).trans pushNew_extends
  · exact List.prefix_refl _

theorem seedStep_class_mem {tbl : Table} {pat : String → Bool} {st : SeedState}
    {k : String} {d : DeclInfo} {c : String} {cd : DeclInfo}
    (hp : pat d.originalCode = true) (hc : d.className = some c)
    (hcd : mapGet tbl c = some cd) :
    cd.node ∈ (seedStep tbl pat st (k, d)).nodes := by
  unfold seedStep
  simp only [hp, if_true]
  rw [mem_pushNew]
  exact Or.inl (includeClassNode_mem hc hcd)

theorem seedFold_nodes_extends (tbl : Table) (pat : String → Bool)
    (entries : List (String × DeclInfo)) (st : SeedState) :
    st.nodes <+: (entries.foldl (seedStep tbl pat) st).nodes := by
  induction entries generalizing st with
  | nil => exact List.prefix_refl _
  | cons e rest ih =>
      exact List.IsPrefix.trans (seedStep_nodes_extends tbl pat st e) (ih _)

theorem seedFold_matched {tbl : Table} {pat : String → Bool}
    {entries : List (String × DeclInfo)} {st : SeedState} {x : String} :
    x ∈ (entries.foldl (seedStep tbl pat) st).matched ↔
      x ∈ st.matched ∨ ∃ d, (x, d) ∈ entries ∧ pat d.originalCode = true := by
  induction entries generalizing st with
  | nil => simp
  | cons e rest ih =>
    rw [List.foldl_cons, ih]
    rw [seedStep_matched]
    constructor
    · rintro (hm | ⟨d, hd, hpd⟩)
      · split at hm
        · rw [mem_pushNew] at hm
          rcases hm with hm | rfl
          · exact Or.inl hm
          · exact Or.inr ⟨e.2, List.mem_cons_self e rest, by assumption⟩
        · exact Or.inl hm
      · exact Or.inr ⟨d, List.mem_cons_of_mem e hd, hpd⟩
    · rintro (hm | ⟨d, hd, hpd⟩)
      · left
        split
        · exact List.IsPrefix.subset pushNew_extends hm
        · exact hm
      · rw [List.mem_cons] at hd
        rcases hd with rfl | hd
        · left
          rw [hpd, if_pos rfl]
          rw [mem_pushNew]
          exact Or.inr rfl
        · exact Or.inr ⟨d, hd, hpd⟩

theorem seedFold_of_noMatch {tbl : Table} {pat : String → Bool}
    {entries : List (String × DeclInfo)} {st : SeedState}
    (h : ∀ e ∈ entries, pat e.2.originalCode = false) :
    entries.foldl (seedStep tbl pat) st = st := by
  induction entries generalizing st with
  | nil => rfl
  | cons e rest ih =>
    rw [List.foldl_cons]
    have he : pat e.2.originalCode = false := h e (List.mem_cons_self e rest)
    have hstep : seedStep tbl pat st e = st := by
      obtain ⟨k, d⟩ := e
      unfold seedStep
      simp only at he
      simp [he]
    rw [hstep]
    exact ih (fun e' he' => h e' (List.mem_cons_of_mem e he'))

theorem seedFold_deps_nodup {tbl : Table} {pat : String → Bool}
    {entries : List (String × DeclInfo)} {st : SeedState}
    (h : st.deps.Nodup) : (entries.foldl (seedStep tbl pat) st).deps.Nodup := by
  induction entries generalizing st with
  | nil => exact h
  | cons e rest ih =>
    apply ih
    rw [seedStep_deps]
    split
    · exact findDependenciesInNode_nodup h
    · exact h

theorem seedFold_deps_bound {tbl : Table} {pat : String → Bool}
    {entries : List (String × DeclInfo)} {st : SeedState} {x : String}
    (hx : x ∈ (entries.foldl (seedStep tbl pat) st).deps) :
    x ∈ st.deps ∨ mapHas tbl x = true := by
  induction entries generalizing st with
  | nil => exact Or.inl hx
  | cons e rest ih =>
    rcases ih hx with hx' | hx'
    · rw [seedStep_deps] at hx'
      split at hx'
      · rw [mem_findDependenciesInNode] at hx'
        rcases hx' with hx' | ⟨_, hhas⟩
        · exact Or.inl hx'
        · exact Or.inr hhas
      · exact Or.inl hx'
    · exact Or.inr hx'

end DepExtract

namespace DepExtract

theorem processDep_deps_extends (tbl : Table) (st : ClosureState) (n : String) :
    st.deps <+: (processDep tbl st n).deps := by
  unfold processDep
  cases mapGet tbl n with
  | none => exact List.prefix_refl _
  | some d =>
    simp only
    split
    · exact findDependenciesInNode_extends tbl st.deps d.path
    · exact List.prefix_refl _

theorem processDep_nodes_extends (tbl : Table) (st : ClosureState) (n : String) :
    st.nodes <+: (processDep tbl st n).nodes := by
  unfold processDep
  cases mapGet tbl n with
  | none => exact List.prefix_refl _
  | some d =>
    simp only
    split
    · exact List.IsPrefix.trans pushNew_extends (includeParentNode_extends tbl d _)
    · exact List.prefix_refl _

theorem processDep_deps_nodup {tbl : Table} {st : ClosureState} {n : String}
    (h : st.deps.Nodup) : (processDep tbl st n).deps.Nodup := by
  unfold processDep
  cases mapGet tbl n with
  | none => exact h
  | some d =>
    simp only
    split
    · exact findDependenciesInNode_nodup h
    · exact h

theorem processDep_deps_bound {tbl : Table} {st : ClosureState} {n : String} {x : String}
    (hx : x ∈ (processDep tbl st n).deps) : x ∈ st.deps ∨ mapHas tbl x = true := by
  unfold processDep at hx
  cases hm : mapGet tbl n with
  | none => rw [hm] at hx; exact Or.inl hx
  | some d =>
    rw [hm] at hx
    simp only at hx
    split at hx
    · rw [mem_findDependenciesInNode] at hx
      rcases hx with hx | ⟨_, hhas⟩
      · exact Or.inl hx
      · exact Or.inr hhas
    · exact Or.inl hx

theorem foldProcess_deps_extends (tbl : Table) (l : List String) (st : ClosureState) :
    st.deps <+: (l.foldl (processDep tbl) st).deps := by
  induction l generalizing st with
  | nil => exact List.prefix_refl _
  | cons n rest ih =>
    exact List.IsPrefix.trans (processDep_deps_extends tbl st n) (ih _)

theorem foldProcess_nodes_extends (tbl : Table) (l : List String) (st : ClosureState) :
    st.nodes <+: (l.foldl (processDep tbl) st).nodes := by
  induction l generalizing st with
  | nil => exact List.prefix_refl _
  | cons n rest ih =>
    exact List.IsPrefix.trans (processDep_nodes_extends tbl st n) (ih _)

theorem foldProcess_deps_nodup {tbl : Table} {l : List String} {st : ClosureState}
    (h : st.deps.Nodup) : ((l.foldl (processDep tbl) st)).deps.Nodup := by
  induction l generalizing st with
  | nil => exact h
  | cons n rest ih => exact ih (processDep_deps_nodup h)

theorem foldProcess_deps_bound {tbl : Table} {l : List String} {st : ClosureState} {x : String}
    (hx : x ∈ (l.foldl (processDep tbl) st).deps) : x ∈ st.deps ∨ mapHas tbl x = true := by
  induction l generalizing st with
  | nil => exact Or.inl hx
  | cons n rest ih =>
    rcases ih hx with hx' | hx'
    · exact processDep_deps_bound hx'
    · exact Or.inr hx'

theorem passOnce_deps_extends (tbl : Table) (st : ClosureState) :
    st.deps <+: (passOnce tbl st).deps :=
  foldProcess_deps_extends tbl st.deps st

theorem passOnce_nodes_extends (tbl : Table) (st : ClosureState) :
    st.nodes <+: (passOnce tbl st).nodes :=
  foldProcess_nodes_extends tbl st.deps st

theorem passOnce_deps_nodup {tbl : Table} {st : ClosureState}
    (h : st.deps.Nodup) : (passOnce tbl st).deps.Nodup :=
  foldProcess_deps_nodup h

theorem passOnce_deps_bound {tbl : Table} {st : ClosureState}
    (h : ∀ x ∈ st.deps, mapHas tbl x = true) :
    ∀ x ∈ (passOnce tbl st).deps, mapHas tbl x = true := by
  intro x hx
  rcases foldProcess_deps_bound hx with hx' | hx'
  · exact h x hx'
  · exact hx'

/-- Distinct dependency names that are all table keys cannot outnumber
the table's entries. -/
theorem deps_length_le_table {tbl : Table} {deps : List String}
    (hnd : deps.Nodup) (hsub : ∀ x ∈ deps, mapHas tbl x = true) :
    deps.length ≤ tbl.length := by
  have hsub' : deps ⊆ tbl.map Prod.fst := by
    intro x hx
    have := hsub x hx
    unfold mapHas at this
    exact mapGet_isSome_iff.mp this
  calc deps.length ≤ (tbl.map Prod.fst).length := (List.Nodup.subperm hnd hsub').length_le
    _ = tbl.length := List.length_map tbl Prod.fst

end DepExtract

namespace DepExtract

theorem depLoop_master (tbl : Table) :
    ∀ (fuel prev : Nat) (st : ClosureState),
      st.deps.Nodup → (∀ x ∈ st.deps, mapHas tbl x = true) →
      tbl.length + 1 ≤ fuel + prev →
      st.deps <+: (depLoop tbl fuel prev st).2.deps ∧
      (depLoop tbl fuel prev st).2.deps.Nodup ∧
      (∀ x ∈ (depLoop tbl fuel prev st).2.deps, mapHas tbl x = true) ∧
      (1 ≤ prev → prev ≤ tbl.length → (depLoop tbl fuel prev st).1 ≤ tbl.length - prev) ∧
      (∀ g, tbl.length + 1 ≤ g + prev → depLoop tbl g prev st = depLoop tbl fuel prev st) := by
  intro fuel
  induction fuel with
  | zero =>
    intro prev st hnd hsub hf
    have hlen : st.deps.length ≤ tbl.length := deps_length_le_table hnd hsub
    refine ⟨List.prefix_refl _, hnd, hsub, ?_, ?_⟩
    · intro h1 h2
      omega
    · intro g hg
      cases g with
      | zero => rfl
      | succ g' =>
        show depLoop tbl (g' + 1) prev st = depLoop tbl 0 prev st
        simp only [depLoop]
        rw [if_neg (by omega)]
  | succ f ih =>
    intro prev st hnd hsub hf
    have hlen : st.deps.length ≤ tbl.length := deps_length_le_table hnd hsub
    by_cases hc : st.deps.length > prev
    · have hnd1 : (passOnce tbl st).deps.Nodup := passOnce_deps_nodup hnd
      have hsub1 : ∀ x ∈ (passOnce tbl st).deps, mapHas tbl x = true :=
        passOnce_deps_bound hsub
      have hf1 : tbl.length + 1 ≤ f + st.deps.length := by omega
      obtain ⟨iha, ihnd, ihsub, ihc, ihg⟩ :=
        ih st.deps.length (passOnce tbl st) hnd1 hsub1 hf1
      have hunfold : depLoop tbl (f + 1) prev st =
          ((depLoop tbl f st.deps.length (passOnce tbl st)).1 + 1,
            (depLoop tbl f st.deps.length (passOnce tbl st)).2) := by
        simp only [depLoop]
        rw [if_pos hc]
      rw [hunfold]
      refine ⟨?_, ihnd, ihsub, ?_, ?_⟩
      · exact List.IsPrefix.trans (passOnce_deps_extends tbl st) iha
      · intro h1 h2
        have hb := ihc (by omega) hlen
        simp only
        omega
      · intro g hg
        cases g with
        | zero => omega
        | succ g' =>
          have hg' : tbl.length + 1 ≤ g' + st.deps.length := by omega
          show depLoop tbl (g' + 1) prev st = _
          simp only [depLoop]
          rw [if_pos hc, ihg g' hg']
    · have hunfold : depLoop tbl (f + 1) prev st = (0, st) := by
        simp only [depLoop]
        rw [if_neg hc]
      rw [hunfold]
      refine ⟨List.prefix_refl _, hnd, hsub, fun _ _ => Nat.zero_le _, ?_⟩
      intro g hg
      cases g with
      | zero => rfl
      | succ g' =>
        show depLoop tbl (g' + 1) prev st = (0, st)
        simp only [depLoop]
        rw [if_neg hc]

/-- The fixpoint loop as run by `extractPatternWithDependencies` (fuel
`tbl.length + 1`, previous count 0): the dependency list grows
monotonically, stays bounded by the number of table entries, the
iteration count is at most the number of table entries, and any larger
fuel computes the same result (the loop really terminates there). -/
theorem depLoop_run (tbl : Table) (st : ClosureState)
    (hnd : st.deps.Nodup) (hsub : ∀ x ∈ st.deps, mapHas tbl x = true) :
    st.deps <+: (depLoop tbl (tbl.length + 1) 0 st).2.deps ∧
    (depLoop tbl (tbl.length + 1) 0 st).2.deps.length ≤ tbl.length ∧
    (depLoop tbl (tbl.length + 1) 0 st).1 ≤ tbl.length ∧
    (∀ g, tbl.length + 1 ≤ g → depLoop tbl g 0 st = depLoop tbl (tbl.length + 1) 0 st) := by
  have hlen : st.deps.length ≤ tbl.length := deps_length_le_table hnd hsub
  by_cases hc : st.deps.length > 0
  · have hnd1 : (passOnce tbl st).deps.Nodup := passOnce_deps_nodup hnd
    have hsub1 : ∀ x ∈ (passOnce tbl st).deps, mapHas tbl x = true :=
      passOnce_deps_bound hsub
    have hf1 : tbl.length + 1 ≤ tbl.length + st.deps.length := by omega
    obtain ⟨iha, ihnd, ihsub, ihc, ihg⟩ :=
      depLoop_master tbl tbl.length st.deps.length (passOnce tbl st) hnd1 hsub1 hf1
    have hunfold : depLoop tbl (tbl.length + 1) 0 st =
        ((depLoop tbl tbl.length st.deps.length (passOnce tbl st)).1 + 1,
          (depLoop tbl tbl.length st.deps.length (passOnce tbl st)).2) := by
      simp only [depLoop]
      rw [if_pos hc]
    rw [hunfold]
    refine ⟨?_, ?_, ?_, ?_⟩
    · exact List.IsPrefix.trans (passOnce_deps_extends tbl st) iha
    · exact deps_length_le_table ihnd ihsub
    · have hb := ihc (by omega) hlen
      simp only
      omega
    · intro g hg
      cases g with
      | zero => omega
      | succ g' =>
        have hg' : tbl.length + 1 ≤ g' + st.deps.length := by omega
        show depLoop tbl (g' + 1) 0 st = _
        simp only [depLoop]
        rw [if_pos hc, ihg g' hg']
  · have hunfold : depLoop tbl (tbl.length + 1) 0 st = (0, st) := by
      simp only [depLoop]
      rw [if_neg hc]
    rw [hunfold]
    refine ⟨List.prefix_refl _, hlen, Nat.zero_le _, ?_⟩
    intro g hg
    cases g with
    | zero => omega
    | succ g' =>
      show depLoop tbl (g' + 1) 0 st = (0, st)
      simp only [depLoop]
      rw [if_neg hc]

end DepExtract

namespace DepExtract

theorem mem_retentionStep {deps : List String} {imp : String} {ns2 : List Ast}
    {node : Ast} {n : Ast} :
    n ∈ retentionStep deps imp ns2 node ↔
      n ∈ ns2 ∨ (n = node ∧ ∃ s locals, n = Ast.importDecl s locals ∧ s = imp ∧
        locals.any (fun l => decide (l ∈ deps)) = true) := by
  cases node
  case importDecl s locals =>
    simp only [retentionStep]
    by_cases hs : s = imp
    · rw [if_pos hs]
      by_cases ha : locals.any (fun l => decide (l ∈ deps)) = true
      · rw [if_pos ha, mem_pushNew]
        constructor
        · rintro (h | rfl)
          · exact Or.inl h
          · exact Or.inr ⟨rfl, s, locals, rfl, hs, ha⟩
        · rintro (h | ⟨rfl, _, _, _, _, _⟩)
          · exact Or.inl h
          · exact Or.inr rfl
      · rw [if_neg ha]
        constructor
        · exact Or.inl
        · rintro (h | ⟨rfl, s', locals', he, _, ha'⟩)
          · exact h
          · cases he
            exact absurd ha' ha
    · rw [if_neg hs]
      constructor
      · exact Or.inl
      · rintro (h | ⟨rfl, s', locals', he, hs', _⟩)
        · exact h
        · cases he
          exact absurd hs' hs
  all_goals
    simp only [retentionStep]
    constructor
    · exact Or.inl
    · rintro (h | ⟨rfl, s', locals', he, _, _⟩) <;> first | exact h | exact absurd he (by simp)

theorem mem_retentionFold {deps : List String} {imp : String} {imps : List Ast}
    {ns : List Ast} {n : Ast} :
    n ∈ imps.foldl (retentionStep deps imp) ns ↔
      n ∈ ns ∨ (n ∈ imps ∧ ∃ s locals, n = Ast.importDecl s locals ∧ s = imp ∧
        locals.any (fun l => decide (l ∈ deps)) = true) := by
  induction imps generalizing ns with
  | nil => simp
  | cons node rest ih =>
    rw [List.foldl_cons, ih, mem_retentionStep]
    constructor
    · rintro ((h | ⟨rfl, hP⟩) | ⟨hmem, hP⟩)
      · exact Or.inl h
      · exact Or.inr ⟨List.mem_cons_self _ _, hP⟩
      · exact Or.inr ⟨List.mem_cons_of_mem _ hmem, hP⟩
    · rintro (h | ⟨hmem, hP⟩)
      · exact Or.inl (Or.inl h)
      · rw [List.mem_cons] at hmem
        rcases hmem with rfl | hmem
        · exact Or.inl (Or.inr ⟨rfl, hP⟩)
        · exact Or.inr ⟨hmem, hP⟩

theorem mem_retentionPhase {prog : Ast} {unresolved deps : List String}
    {nodes : List Ast} {n : Ast} :
    n ∈ retentionPhase prog unresolved deps nodes ↔
      n ∈ nodes ∨ (n ∈ importNodes prog ∧ ∃ s locals, n = Ast.importDecl s locals ∧
        s ∈ unresolved ∧ locals.any (fun l => decide (l ∈ deps)) = true) := by
  unfold retentionPhase
  induction unresolved generalizing nodes with
  | nil => simp
  | cons imp rest ih =>
    rw [List.foldl_cons, ih, mem_retentionFold]
    constructor
    · rintro ((h | ⟨hmem, s, locals, he, hs, ha⟩) | ⟨hmem, s, locals, he, hs, ha⟩)
      · exact Or.inl h
      · exact Or.inr ⟨hmem, s, locals, he, hs ▸ List.mem_cons_self _ _, ha⟩
      · exact Or.inr ⟨hmem, s, locals, he, List.mem_cons_of_mem _ hs, ha⟩
    · rintro (h | ⟨hmem, s, locals, he, hs, ha⟩)
      · exact Or.inl (Or.inl h)
      · rw [List.mem_cons] at hs
        rcases hs with rfl | hs
        · exact Or.inl (Or.inr ⟨hmem, s, locals, he, rfl, ha⟩)
        · exact Or.inr ⟨hmem, s, locals, he, hs, ha⟩

end DepExtract

namespace DepExtract

theorem find?_append {α : Type} (p : α → Bool) (l1 l2 : List α) :
    (l1 ++ l2).find? p = ((l1.find? p).orElse (fun _ => l2.find? p)) := by
  induction l1 with
  | nil => simp [Option.orElse]
  | cons a rest ih =>
    rw [List.cons_append, List.find?_cons, List.find?_cons]
    cases hp : p a with
    | true => simp [Option.orElse]
    | false => exact ih

theorem mapGet_mapSet_self (m : Table) (k : String) (v : DeclInfo) :
    mapGet (mapSet m k v) k = some v := by
  unfold mapSet
  split
  · rename_i hk
    induction m with
    | nil => simp at hk
    | cons p rest ih =>
      rw [List.map_cons]
      unfold mapGet
      rw [List.find?_cons]
      by_cases hp : p.1 = k
      · rw [if_pos hp]
        simp
      · rw [if_neg hp, decide_eq_false hp]
        rw [List.map_cons, List.mem_cons] at hk
        rcases hk with rfl | hk
        · exact absurd rfl hp
        · exact ih hk
  · unfold mapGet
    rw [find?_append]
    rename_i hk
    have h1 : m.find? (fun p => decide (p.1 = k)) = none := by
      rw [List.find?_eq_none]
      intro q hq
      simp only [decide_eq_true_eq]
      intro hqk
      exact hk (hqk ▸ List.mem_map_of_mem Prod.fst hq)
    rw [h1]
    simp [Option.orElse, List.find?]

theorem mapGet_replace {m : Table} {k k' : String} {v : DeclInfo} (hne : k' ≠ k) :
    mapGet (m.map (fun p => if p.1 = k then (k, v) else p)) k' = mapGet m k' := by
  induction m with
  | nil => rfl
  | cons p rest ih =>
    rw [List.map_cons]
    show (List.find? _ (_ :: _)).map Prod.snd = (List.find? _ (_ :: _)).map Prod.snd
    rw [List.find?_cons, List.find?_cons]
    by_cases hp : p.1 = k
    · rw [if_pos hp]
      have hd1 : decide ((k, v).1 = k') = false :=
        decide_eq_false (fun h => hne (h.symm))
      have hd2 : decide (p.1 = k') = false :=
        decide_eq_false (fun h => hne (h.symm.trans hp))
      rw [hd1, hd2]
      exact ih
    · rw [if_neg hp]
      by_cases hp' : p.1 = k'
      · rw [decide_eq_true hp']
      · rw [decide_eq_false hp']
        exact ih

theorem mapGet_mapSet_other {m : Table} {k k' : String} {v : DeclInfo} (hne : k' ≠ k) :
    mapGet (mapSet m k v) k' = mapGet m k' := by
  unfold mapSet
  split
  · exact mapGet_replace hne
  · show (List.find? _ (_ ++ _)).map Prod.snd = _
    rw [find?_append]
    cases hf : m.find? (fun p => decide (p.1 = k')) with
    | some q => simp [mapGet, hf, Option.orElse]
    | none =>
      simp only [Option.orElse]
      rw [List.find?_cons]
      have hd1 : decide ((k, v).1 = k') = false :=
        decide_eq_false (fun h => hne (h.symm))
      rw [hd1]
      simp [mapGet, hf]

theorem mapGet_foldl_mapSet_not_assigned {names : List String} {m : Table}
    {f : String → DeclInfo} {l : String} (hl : l ∉ names) :
    mapGet (names.foldl (fun g x => mapSet g x (f x)) m) l = mapGet m l := by
  induction names generalizing m with
  | nil => rfl
  | cons x rest ih =>
    rw [List.foldl_cons]
    rw [List.mem_cons, not_or] at hl
    rw [ih hl.2]
    exact mapGet_mapSet_other hl.1

theorem mapGet_foldl_mapSet_const {names : List String} {m : Table} {v : DeclInfo}
    {l : String} (hl : l ∈ names) :
    mapGet (names.foldl (fun g x => mapSet g x v) m) l = some v := by
  induction names generalizing m with
  | nil => cases hl
  | cons x rest ih =>
    rw [List.foldl_cons]
    by_cases hmem : l ∈ rest
    · exact ih hmem
    · rw [List.mem_cons] at hl
      rcases hl with rfl | hl
      · have h := @mapGet_foldl_mapSet_not_assigned rest (mapSet m l v) (fun _ => v) l hmem
        rw [h]
        exact mapGet_mapSet_self m l v
      · exact absurd hl hmem

theorem buildTable_lastWrite (assigns : List (String × DeclInfo)) (start : Table) (k : String) :
    mapGet (buildTable assigns start) k =
      match assigns.reverse.find? (fun kv => decide (kv.1 = k)) with
      | some kv => some kv.2
      | none => mapGet start k := by
  induction assigns generalizing start with
  | nil => simp [buildTable]
  | cons a rest ih =>
    have hstep : buildTable (a :: rest) start = buildTable rest (mapSet start a.1 a.2) := rfl
    rw [hstep, ih, List.reverse_cons, find?_append]
    cases hf : rest.reverse.find? (fun kv => decide (kv.1 = k)) with
    | some kv => simp [Option.orElse]
    | none =>
      simp only [Option.orElse]
      by_cases ha : a.1 = k
      · rw [List.find?_cons, decide_eq_true ha]
        simp only
        rw [← ha]
        exact mapGet_mapSet_self start a.1 a.2
      · rw [List.find?_cons, decide_eq_false ha]
        simp only [List.find?_nil]
        exact mapGet_mapSet_other (fun h => ha (h ▸ rfl))

end DepExtract

namespace DepExtract

theorem findSome?_map {α β : Type} (h : α → β) (g : β → Bool) (l : List α) :
    l.findSome? (fun x => if g (h x) then some (h x) else none) = (l.map h).find? g := by
  induction l with
  | nil => rfl
  | cons a rest ih =>
    rw [List.map_cons, List.findSome?_cons, List.find?_cons]
    cases hg : g (h a) with
    | true => rfl
    | false => exact ih

/-- The candidate list that the C7 claim describes: the literal resolved
path, then the path with each extension appended in list order, then
`index` + each extension under the path. -/
def relCandidates (env : Env) (basePath : String) : List String :=
  extensions.map (fun ext => basePath ++ ext)
    ++ extensions.map (fun ext => env.joinIndex basePath ++ ext)

/-- C7: for every relative import specifier (starting with `./` or
`../`), resolution returns the literal resolved path when it exists and
is a regular file, otherwise the first existing candidate among the five
extension-suffixed paths followed by the five `index`-file paths, in that
order, otherwise the host resolver's answer (`none`, the source's
`null`, when that fails too).  This is `resolveImportPath` restated as a
first-match over the claim's ordered candidate list. -/
theorem C7_relativeResolution (env : Env) (imp cur : String)
    (hrel : (strStartsWith imp "./" || strStartsWith imp "../") = true) :
    resolveImportPath env imp cur =
      (if env.existsSync (env.resolvePath (env.dirname cur) imp)
          && env.isRegularFile (env.resolvePath (env.dirname cur) imp) then
        some (env.resolvePath (env.dirname cur) imp)
      else
        match (relCandidates env (env.resolvePath (env.dirname cur) imp)).find? env.existsSync with
        | some p => some p
        | none => env.hostResolve imp (env.dirname cur)) := by
  unfold resolveImportPath relCandidates
  simp only [hrel]
  rw [if_true]
  by_cases hA : env.existsSync (env.resolvePath (env.dirname cur) imp)
      && env.isRegularFile (env.resolvePath (env.dirname cur) imp)
  · rw [if_pos hA, if_pos hA]
  · rw [if_neg hA, if_neg hA]
    rw [find?_append]
    rw [← findSome?_map (fun ext => env.resolvePath (env.dirname cur) imp ++ ext) env.existsSync extensions]
    rw [← findSome?_map (fun ext => env.joinIndex (env.resolvePath (env.dirname cur) imp) ++ ext) env.existsSync extensions]
    cases h1 : extensions.findSome? (fun ext =>
        if env.existsSync (env.resolvePath (env.dirname cur) imp ++ ext) then
          some (env.resolvePath (env.dirname cur) imp ++ ext) else none) with
    | some p => simp [Option.orElse]
    | none => simp [Option.orElse]

end DepExtract

namespace DepExtract

/-- A concrete environment with an empty file system: the entry text
`"ENTRY"` parses to `prog`, no other text parses, no file exists, and no
specifier resolves. -/
def envNone (prog : Ast) : Env :=
  { parseSource := fun s => if s = "ENTRY" then some prog else none,
    fileAst := fun _ => none,
    existsSync := fun _ => false,
    isRegularFile := fun _ => false,
    hostResolve := fun _ _ => none,
    dirname := fun _ => "/app",
    resolvePath := fun b r => b ++ "/" ++ r,
    joinIndex := fun b => b ++ "/index" }

/-- Program `import { foo } from "./missing"; function bar() {}`. -/
def progImp : Ast := Ast.listOf
  [ .importDecl "./missing" ["foo"],
    .funcDecl "bar" [] .nil ]

/-- Program `class A { m() {} } function seedF() { m(); }`. -/
def progCls : Ast := Ast.listOf
  [ .classDecl "A" (Ast.listOf [.classMethod "m" [] .nil]),
    .funcDecl "seedF" [] (Ast.listOf [.exprStmt (.call (.ident "m") .nil)]) ]

/-- Program `function helper() { 1; } function target() { helper(); }
function unrelated() { 42; }` (the spec's running example). -/
def progTgt : Ast := Ast.listOf
  [ .funcDecl "helper" [] (Ast.listOf [.exprStmt (.lit "1")]),
    .funcDecl "target" [] (Ast.listOf [.exprStmt (.call (.ident "helper") .nil)]),
    .funcDecl "unrelated" [] (Ast.listOf [.exprStmt (.lit "42")]) ]

/-- Program `function outer() { function inner() {} }`. -/
def progNest : Ast := Ast.listOf
  [ .funcDecl "outer" [] (Ast.listOf [.funcDecl "inner" [] .nil]) ]

/-- The record the indexer produces for `A.m` (and `m`) in `progCls`. -/
def mRec : DeclInfo :=
  { node := .classMethod "m" [] .nil, type := "method", path := .classMethod "m" [] .nil,
    source := "/app/main.js", className := some "A", originalCode := "m() \x7b  \x7d" }

/-- The record the indexer produces for class `A` in `progCls`. -/
def aRec : DeclInfo :=
  { node := .classDecl "A" (Ast.listOf [.classMethod "m" [] .nil]), type := "class",
    path := .classDecl "A" (Ast.listOf [.classMethod "m" [] .nil]),
    source := "/app/main.js", originalCode := "class A \x7b m() \x7b  \x7d \x7d" }

/-- The record the indexer produces for `target` in `progTgt`. -/
def targetRec : DeclInfo :=
  { node := .funcDecl "target" [] (Ast.listOf [.exprStmt (.call (.ident "helper") .nil)]),
    type := "function",
    path := .funcDecl "target" [] (Ast.listOf [.exprStmt (.call (.ident "helper") .nil)]),
    source := "/app/main.js", originalCode := "function target() \x7b helper(); \x7d" }

/-- C1 counterexample: a source with one unresolvable import and a
pattern matching nothing.  The result has `success = false`, empty
`finalCode` and empty `matchedPatterns`/`dependencies`/`matchDetails`,
but `unresolvedImports` is `["./missing"]`, not the zero-length list the
claim requires of every metadata list. -/
theorem C1_counterexample :
    (extractPatternWithDependencies (envNone progImp) "ENTRY" (fun _ => false) "/app/main.js").toOption.map
      (fun r => (r.success, r.finalCode, r.metadata.matchedPatterns, r.metadata.dependencies,
        r.metadata.matchDetails, r.metadata.resolvedImports, r.metadata.unresolvedImports))
      = some (false, "", [], [], [], [], ["./missing"]) := by
  rfl

/-- C1 (amended): when no record's text matches the pattern, the
extraction returns the explicit failure result with `success = false`,
empty `finalCode`, and empty `matchedPatterns`, `dependencies` and
`matchDetails`; `resolvedImports` and `unresolvedImports` carry the
specifiers of the imports actually processed, which need not be empty. -/
theorem C1_noMatchContract (env : Env) (src cur : String) (pat : String → Bool) (prog : Ast)
    (hparse : env.parseSource src = some prog)
    (hno : ∀ e ∈ (buildGlobalTable env cur prog).table, pat e.2.originalCode = false) :
    extractPatternWithDependencies env src pat cur = Except.ok
      { success := false,
        message := "No patterns found matching regex",
        finalCode := "",
        metadata :=
          { matchedPatterns := [], dependencies := [], totalNodesIncluded := 0,
            resolvedImports := (buildGlobalTable env cur prog).resolved,
            unresolvedImports := (buildGlobalTable env cur prog).unresolved,
            matchDetails := [], iterationsRequired := none,
            originalCodeLength := src.length, extractedCodeLength := 0 } } := by
  have hseed : seedPhase (buildGlobalTable env cur prog).table pat =
      { matched := [], matchDetails := [], deps := [], nodes := [] } :=
    seedFold_of_noMatch hno
  unfold extractPatternWithDependencies
  rw [hparse]
  simp [hseed]

/-- Witness for C1 (amended) at the concrete no-match input. -/
theorem C1_noMatchContract_witness :
    extractPatternWithDependencies (envNone progImp) "ENTRY" (fun _ => false) "/app/main.js" = Except.ok
      { success := false,
        message := "No patterns found matching regex",
        finalCode := "",
        metadata :=
          { matchedPatterns := [], dependencies := [], totalNodesIncluded := 0,
            resolvedImports := (buildGlobalTable (envNone progImp) "/app/main.js" progImp).resolved,
            unresolvedImports := (buildGlobalTable (envNone progImp) "/app/main.js" progImp).unresolved,
            matchDetails := [], iterationsRequired := none,
            originalCodeLength := "ENTRY".length, extractedCodeLength := 0 } } :=
  C1_noMatchContract (envNone progImp) "ENTRY" "/app/main.js" (fun _ => false) progImp rfl
    (fun _ _ => rfl)

theorem seedFold_class_mem {tbl : Table} {pat : String → Bool}
    {entries : List (String × DeclInfo)} {st : SeedState} {k : String} {d : DeclInfo}
    {c : String} {cd : DeclInfo}
    (hmem : (k, d) ∈ entries) (hpat : pat d.originalCode = true)
    (hc : d.className = some c) (hcd : mapGet tbl c = some cd) :
    cd.node ∈ (entries.foldl (seedStep tbl pat) st).nodes := by
  induction entries generalizing st with
  | nil => cases hmem
  | cons e rest ih =>
    rw [List.mem_cons] at hmem
    rw [List.foldl_cons]
    rcases hmem with rfl | hmem
    · exact List.IsPrefix.subset (seedFold_nodes_extends tbl pat rest _)
        (seedStep_class_mem hpat hc hcd)
    · exact ih hmem

/-- The pattern used by the C2 counterexample: matches exactly the text
of `seedF`. -/
def patSeedF : String → Bool := fun s => containsSubstr s "seedF"

/-- The final output node list computed by the extraction on `progCls`
with `patSeedF` (the seed phase, the fixpoint loop and the retention
phase, exactly as composed inside `extractPatternWithDependencies`). -/
def C2finalNodes : List Ast :=
  let ist := buildGlobalTable (envNone progCls) "/app/main.js" progCls
  let sd := seedPhase ist.table patSeedF
  let r := depLoop ist.table (ist.table.length + 1) 0 { deps := sd.deps, nodes := sd.nodes }
  retentionPhase progCls ist.unresolved r.2.deps r.2.nodes

/-- C2 counterexample: the method `m` (whose record carries
`className = "A"`) enters the output as a transitive dependency of the
seed `seedF`, yet the node of class `A` is not added to the output node
set, and the output text contains no `class A`.  The class-inclusion
rule is applied only to pattern-matched seeds, not to dependencies. -/
theorem C2_counterexample :
    ((extractPatternWithDependencies (envNone progCls) "ENTRY" patSeedF "/app/main.js").toOption.map
      (fun r => (r.success, r.metadata.matchedPatterns, r.metadata.dependencies))
      = some (true, ["seedF"], ["m"])) ∧
    (mapGet (buildGlobalTable (envNone progCls) "/app/main.js" progCls).table "m" = some mRec) ∧
    mRec.className = some "A" ∧
    aRec.node ∉ C2finalNodes ∧
    ((extractPatternWithDependencies (envNone progCls) "ENTRY" patSeedF "/app/main.js").toOption.map
      (fun r => containsSubstr r.finalCode "class A")) = some false := by
  refine ⟨rfl, rfl, rfl, by decide, rfl⟩

/-- C2 (amended): the enclosing-class inclusion rule holds for
pattern-matched seeds: if a table record matched by the pattern carries
a `className` that is itself a table key, the class record's node is in
the seed phase's output node set.  (The fixpoint loop applies no such
rule to declarations included as transitive dependencies, as the
counterexample shows.) -/
theorem C2_seedClassInclusion (tbl : Table) (pat : String → Bool) (k : String) (d : DeclInfo)
    (c : String) (cd : DeclInfo) (hmem : (k, d) ∈ tbl) (hpat : pat d.originalCode = true)
    (hc : d.className = some c) (hcd : mapGet tbl c = some cd) :
    cd.node ∈ (seedPhase tbl pat).nodes := by
  unfold seedPhase
  exact seedFold_class_mem hmem hpat hc hcd

/-- Witness for C2 (amended): selecting the method `m` of class `A` by a
pattern matching the method's own text pulls the node of class `A` into
the output set. -/
theorem C2_seedClassInclusion_witness :
    aRec.node ∈ (seedPhase (buildGlobalTable (envNone progCls) "/app/main.js" progCls).table
      (fun s => containsSubstr s "m()")).nodes :=
  C2_seedClassInclusion (buildGlobalTable (envNone progCls) "/app/main.js" progCls).table
    (fun s => containsSubstr s "m()") "m" mRec "A" aRec (by decide) (by decide) rfl rfl

/-- C3: seed selection tests the pattern against the record's full
pretty-printed text (`originalCode`), not its name: a name is matched
exactly when the pattern accepts its record's `originalCode`, and in
particular any pattern built from a substring occurring anywhere inside
the record's text selects it. -/
theorem C3_patternOnFullText (env : Env) (cur : String) (prog : Ast) (pat : String → Bool)
    (name : String) (d : DeclInfo)
    (hd : mapGet (buildGlobalTable env cur prog).table name = some d) :
    (name ∈ (seedPhase (buildGlobalTable env cur prog).table pat).matched ↔
      pat d.originalCode = true) ∧
    (∀ t : String, containsSubstr d.originalCode t = true →
      name ∈ (seedPhase (buildGlobalTable env cur prog).table
        (fun s => containsSubstr s t)).matched) := by
  have hk : keysNodup (buildGlobalTable env cur prog).table :=
    buildGlobalTable_keysNodup env cur prog
  constructor
  · unfold seedPhase
    rw [seedFold_matched]
    constructor
    · rintro (h | ⟨d', hd', hp⟩)
      · exact absurd h (List.not_mem_nil name)
      · have hget := mem_mapGet hk hd'
        rw [hd] at hget
        obtain rfl := Option.some.inj hget
        exact hp
    · intro hp
      exact Or.inr ⟨d, mapGet_mem hd, hp⟩
  · intro t ht
    unfold seedPhase
    rw [seedFold_matched]
    exact Or.inr ⟨d, mapGet_mem hd, ht⟩

/-- Witness for C3 at the spec's running example: `target` is selected
by a pattern accepting its full text. -/
theorem C3_patternOnFullText_witness :
    ("target" ∈ (seedPhase (buildGlobalTable (envNone progTgt) "/app/main.js" progTgt).table
        (fun s => containsSubstr s "target")).matched ↔
      containsSubstr targetRec.originalCode "target" = true) ∧
    (∀ t : String, containsSubstr targetRec.originalCode t = true →
      "target" ∈ (seedPhase (buildGlobalTable (envNone progTgt) "/app/main.js" progTgt).table
        (fun s => containsSubstr s t)).matched) :=
  C3_patternOnFullText (envNone progTgt) "/app/main.js" progTgt
    (fun s => containsSubstr s "target") "target" targetRec rfl

end DepExtract

namespace DepExtract

/-- C4: the dependency-closure fixpoint loop terminates on every input:
starting from the seed phase's dependency set, the set grows
monotonically (the initial list is a prefix of the final one), stays
bounded by the number of distinct entries of the global table, the
iteration count is at most that number, any fuel beyond
`tbl.length + 1` computes the same result (the `while` loop really
stops), and the `iterationsRequired` reported by a successful extraction
is at most the number of distinct table entries. -/
theorem C4_fixpointTermination (env : Env) (src cur : String) (pat : String → Bool) (prog : Ast)
    (hparse : env.parseSource src = some prog) :
    let tbl := (buildGlobalTable env cur prog).table
    let sd := seedPhase tbl pat
    let st0 : ClosureState := { deps := sd.deps, nodes := sd.nodes }
    let r := depLoop tbl (tbl.length + 1) 0 st0
    sd.deps <+: r.2.deps ∧
    r.2.deps.length ≤ tbl.length ∧
    r.1 ≤ tbl.length ∧
    (∀ g, tbl.length + 1 ≤ g → depLoop tbl g 0 st0 = r) ∧
    (∃ res, extractPatternWithDependencies env src pat cur = Except.ok res ∧
      ∀ k, res.metadata.iterationsRequired = some k → k ≤ tbl.length) := by
  intro tbl sd st0 r
  have hnd : st0.deps.Nodup := by
    show (seedPhase tbl pat).deps.Nodup
    unfold seedPhase
    exact seedFold_deps_nodup List.nodup_nil
  have hsub : ∀ x ∈ st0.deps, mapHas tbl x = true := by
    intro x hx
    have hx' : x ∈ (seedPhase tbl pat).deps := hx
    unfold seedPhase at hx'
    rcases seedFold_deps_bound hx' with h | h
    · exact absurd h (List.not_mem_nil x)
    · exact h
  obtain ⟨h1, h2, h3, h4⟩ := depLoop_run tbl st0 hnd hsub
  refine ⟨h1, h2, h3, h4, ?_⟩
  unfold extractPatternWithDependencies
  rw [hparse]
  dsimp only
  by_cases hm : (seedPhase (buildGlobalTable env cur prog).table pat).matched.isEmpty = true
  · rw [if_pos hm]
    refine ⟨_, rfl, ?_⟩
    intro k hk
    simp at hk
  · rw [if_neg hm]
    refine ⟨_, rfl, ?_⟩
    intro k hk
    simp only [Option.some.injEq] at hk
    rw [← hk]
    exact h3

/-- Pattern selecting `target` in `progTgt`. -/
def patSeedTgt : String → Bool := fun s => containsSubstr s "target"

/-- Witness for C4 at the spec's running example. -/
theorem C4_fixpointTermination_witness :
    let tbl := (buildGlobalTable (envNone progTgt) "/app/main.js" progTgt).table
    let sd := seedPhase tbl patSeedTgt
    let st0 : ClosureState := { deps := sd.deps, nodes := sd.nodes }
    let r := depLoop tbl (tbl.length + 1) 0 st0
    sd.deps <+: r.2.deps ∧
    r.2.deps.length ≤ tbl.length ∧
    r.1 ≤ tbl.length ∧
    (∀ g, tbl.length + 1 ≤ g → depLoop tbl g 0 st0 = r) ∧
    (∃ res, extractPatternWithDependencies (envNone progTgt) "ENTRY" patSeedTgt "/app/main.js"
        = Except.ok res ∧
      ∀ k, res.metadata.iterationsRequired = some k → k ≤ tbl.length) :=
  C4_fixpointTermination (envNone progTgt) "ENTRY" "/app/main.js" patSeedTgt progTgt rfl

/-- The pattern used by the C5 counterexample: matches the text of the
unresolved import statement (which contains `./missing`) and nothing
else in `progImp`. -/
def patMissing : String → Bool := fun s => containsSubstr s "missing"

/-- The final output node list computed by the extraction on `progImp`
with `patMissing`, exactly as composed inside
`extractPatternWithDependencies`. -/
def C5finalNodes : List Ast :=
  let ist := buildGlobalTable (envNone progImp) "/app/main.js" progImp
  let sd := seedPhase ist.table patMissing
  let r := depLoop ist.table (ist.table.length + 1) 0 { deps := sd.deps, nodes := sd.nodes }
  retentionPhase progImp ist.unresolved r.2.deps r.2.nodes

/-- C5 counterexample: the specifier `./missing` is unresolved and none
of its bound local names (`foo`) is in the final dependency set (which
is empty), yet the whole import statement appears in the output, because
the import's fallback record itself matched the pattern as a seed.  The
claimed equivalence fails in the only-if direction. -/
theorem C5_counterexample :
    ((extractPatternWithDependencies (envNone progImp) "ENTRY" patMissing "/app/main.js").toOption.map
      (fun r => (r.success, r.metadata.dependencies, r.metadata.unresolvedImports, r.finalCode)))
      = some (true, [], ["./missing"], "import \x7b foo \x7d from \"./missing\";") ∧
    Ast.importDecl "./missing" ["foo"] ∈ C5finalNodes := by
  exact ⟨rfl, by decide⟩

/-- C5 (amended): for an import statement node occurring in the entry
program, membership in the final output node list is equivalent to:
either the node was already included by the seed/closure phases (for
example because the import's own text matched the pattern), or its
specifier is in the unresolved list and at least one of its bound local
names is in the final dependency set.  The retention step itself adds an
unresolved import exactly when one of its bound names is a final
dependency. -/
theorem C5_retentionCharacterization (prog : Ast) (unresolved deps : List String)
    (nodes : List Ast) (s : String) (locals : List String)
    (hin : Ast.importDecl s locals ∈ importNodes prog) :
    Ast.importDecl s locals ∈ retentionPhase prog unresolved deps nodes ↔
      Ast.importDecl s locals ∈ nodes ∨
        (s ∈ unresolved ∧ locals.any (fun l => decide (l ∈ deps)) = true) := by
  rw [mem_retentionPhase]
  constructor
  · rintro (h | ⟨_, s', locals', he, hs, ha⟩)
    · exact Or.inl h
    · obtain ⟨rfl, rfl⟩ : s = s' ∧ locals = locals' := by
        injection he with h1 h2
        exact ⟨h1, h2⟩
      exact Or.inr ⟨hs, ha⟩
  · rintro (h | ⟨hs, ha⟩)
    · exact Or.inl h
    · exact Or.inr ⟨hin, s, locals, rfl, hs, ha⟩

/-- Witness for C5 (amended) on the concrete program with the
unresolved specifier `./missing`. -/
theorem C5_retentionCharacterization_witness :
    Ast.importDecl "./missing" ["foo"] ∈ retentionPhase progImp ["./missing"] ["foo"] [] ↔
      Ast.importDecl "./missing" ["foo"] ∈ ([] : List Ast) ∨
        ("./missing" ∈ ["./missing"] ∧
          (["foo"].any (fun l => decide (l ∈ ["foo"]))) = true) :=
  C5_retentionCharacterization progImp ["./missing"] ["foo"] [] "./missing" ["foo"] (by decide)

/-- C6: an entry parse failure is fatal (the call returns the error, the
model of the thrown exception), while any successfully parsed entry
yields a structured result; and a resolved import whose target file
fails to read or parse is recovered: the visit leaves the global table
unchanged, still appends the specifier to `resolvedImports`, and raises
nothing. -/
theorem C6_parseFailureHandling :
    (∀ (env : Env) (src : String) (pat : String → Bool) (cur : String),
      env.parseSource src = none →
      extractPatternWithDependencies env src pat cur = Except.error "Parse error") ∧
    (∀ (env : Env) (src : String) (pat : String → Bool) (cur : String) (prog : Ast),
      env.parseSource src = some prog →
      ∃ r, extractPatternWithDependencies env src pat cur = Except.ok r) ∧
    (∀ (env : Env) (cur : String) (st : ImportState) (s : String) (locals : List String)
        (p : String),
      resolveImportPath env s cur = some p → p ≠ cur → env.fileAst p = none →
      processImport env cur st (Ast.importDecl s locals) =
        { table := st.table, resolved := st.resolved ++ [s], unresolved := st.unresolved }) := by
  refine ⟨?_, ?_, ?_⟩
  · intro env src pat cur h
    unfold extractPatternWithDependencies
    rw [h]
  · intro env src pat cur prog h
    unfold extractPatternWithDependencies
    rw [h]
    dsimp only
    split
    · exact ⟨_, rfl⟩
    · exact ⟨_, rfl⟩
  · intro env cur st s locals p hres hne hfile
    unfold processImport
    simp only [hres]
    rw [if_pos hne]
    unfold parseFile
    rw [hfile]
    rfl

/-- A concrete environment in which `./util` resolves (via the `.js`
extension candidate) to `/app/util.js`, a file that fails to read or
parse (`fileAst` is `none` everywhere). -/
def envUtl : Env :=
  { parseSource := fun _ => none,
    fileAst := fun _ => none,
    existsSync := fun pth => decide (pth = "/app/util.js"),
    isRegularFile := fun _ => false,
    hostResolve := fun _ _ => none,
    dirname := fun _ => "/app",
    resolvePath := fun _ _ => "/app/util",
    joinIndex := fun b => b ++ "/index" }

/-- Witness for C6: a non-parsing entry errors out; a parsing entry
returns a result; and the concrete environment `envUtl`, which resolves
`./util` to the non-parsing file `/app/util.js`, recovers from the
parse failure of the imported file while keeping the specifier resolved. -/
theorem C6_parseFailureHandling_witness :
    extractPatternWithDependencies (envNone progImp) "NOPE" (fun _ => true) "/app/main.js"
      = Except.error "Parse error" ∧
    (∃ r, extractPatternWithDependencies (envNone progImp) "ENTRY" (fun _ => true) "/app/main.js"
      = Except.ok r) ∧
    processImport envUtl "/app/main.js" { table := [], resolved := [], unresolved := [] }
        (Ast.importDecl "./util" ["u"]) =
      { table := [], resolved := [] ++ ["./util"], unresolved := [] } :=
  ⟨C6_parseFailureHandling.1 (envNone progImp) "NOPE" (fun _ => true) "/app/main.js" rfl,
   C6_parseFailureHandling.2.1 (envNone progImp) "ENTRY" (fun _ => true) "/app/main.js" progImp rfl,
   C6_parseFailureHandling.2.2 envUtl "/app/main.js"
     { table := [], resolved := [], unresolved := [] } "./util" ["u"] "/app/util.js"
     rfl (by decide) rfl⟩

end DepExtract

namespace DepExtract

/-- The record `findClassMethods` produces for a method `m` with empty
body inside class `clsName`. -/
def C8methodInfo (file clsName m : String) (ps : List String) : DeclInfo :=
  { node := .classMethod m ps .nil, type := "method", path := .classMethod m ps .nil,
    source := file, className := some clsName,
    originalCode := printNode (.classMethod m ps .nil) }

/-- The record the indexer produces for a top-level class declaration. -/
def C8classInfo (file n : String) (body : Ast) : DeclInfo :=
  { node := .classDecl n body, type := "class", path := .classDecl n body,
    source := file, originalCode := printNode (.classDecl n body) }

/-- A program with two classes `n1` and `n2`, each defining a method
named `m` (with parameter lists `p1`, `p2` and empty bodies). -/
def C8prog (n1 n2 m : String) (p1 p2 : List String) : Ast :=
  Ast.cons (.classDecl n1 (Ast.cons (.classMethod m p1 .nil) .nil))
    (Ast.cons (.classDecl n2 (Ast.cons (.classMethod m p2 .nil) .nil)) .nil)

/-- C8: a named method inside a class body is stored under both the
composite `ClassName.methodName` key and the bare `methodName` key with
the same record; when two classes each define a method named `m`, both
composite keys hold their own class's record while the bare key `m`
holds the record of the class indexed last.  The inequality hypotheses
only rule out accidental key collisions between unrelated names. -/
theorem C8_doubleKeyMethodStorage (file n1 n2 m : String) (p1 p2 : List String)
    (hA : m ≠ n1 ++ "." ++ m) (hB : n2 ++ "." ++ m ≠ n1 ++ "." ++ m)
    (hC : n2 ≠ n1 ++ "." ++ m) (hD : m ≠ n2 ++ "." ++ m) :
    mapGet (findAllDeclarations file (C8prog n1 n2 m p1 p2)) (n1 ++ "." ++ m) =
      some (C8methodInfo file n1 m p1) ∧
    mapGet (findAllDeclarations file (C8prog n1 n2 m p1 p2)) (n2 ++ "." ++ m) =
      some (C8methodInfo file n2 m p2) ∧
    mapGet (findAllDeclarations file (C8prog n1 n2 m p1 p2)) m =
      some (C8methodInfo file n2 m p2) := by
  have hassign : mainNode file none 0 none (C8prog n1 n2 m p1 p2) =
      [(n1, C8classInfo file n1 (Ast.cons (.classMethod m p1 .nil) .nil)),
       (n1 ++ "." ++ m, C8methodInfo file n1 m p1), (m, C8methodInfo file n1 m p1),
       (n2, C8classInfo file n2 (Ast.cons (.classMethod m p2 .nil) .nil)),
       (n2 ++ "." ++ m, C8methodInfo file n2 m p2), (m, C8methodInfo file n2 m p2)] := rfl
  have htbl : findAllDeclarations file (C8prog n1 n2 m p1 p2) =
      buildTable (mainNode file none 0 none (C8prog n1 n2 m p1 p2)) [] := rfl
  refine ⟨?_, ?_, ?_⟩
  · rw [htbl, hassign, buildTable_lastWrite]
    simp [hA, hB, hC]
  · rw [htbl, hassign, buildTable_lastWrite]
    simp [hD]
  · rw [htbl, hassign, buildTable_lastWrite]
    simp

/-- Witness for C8 with classes `A` and `B` both defining a method `m`. -/
theorem C8_doubleKeyMethodStorage_witness :
    mapGet (findAllDeclarations "/app/main.js" (C8prog "A" "B" "m" [] ["x"]))
        ("A" ++ "." ++ "m") = some (C8methodInfo "/app/main.js" "A" "m" []) ∧
    mapGet (findAllDeclarations "/app/main.js" (C8prog "A" "B" "m" [] ["x"]))
        ("B" ++ "." ++ "m") = some (C8methodInfo "/app/main.js" "B" "m" ["x"]) ∧
    mapGet (findAllDeclarations "/app/main.js" (C8prog "A" "B" "m" [] ["x"])) "m" =
      some (C8methodInfo "/app/main.js" "B" "m" ["x"]) :=
  C8_doubleKeyMethodStorage "/app/main.js" "A" "B" "m" [] ["x"]
    (by decide) (by decide) (by decide) (by decide)

/-- C9 counterexample: for `function outer() { function inner() {} }`,
the nested-scope scan launched from `outer`'s visit records `inner` with
`depth = 1` (not 0, although `inner` is immediately nested in `outer`),
and the outer traversal then re-visits `inner` and overwrites the
record, so the final table holds `inner` as a plain `function` with no
depth and no parent at all. -/
theorem C9_counterexample :
    (("inner", ({ node := Ast.funcDecl "inner" [] .nil, type := "nested-function",
                  path := Ast.funcDecl "inner" [] .nil, source := "/app/main.js",
                  parentFunction := some "outer", depth := some 1, className := none,
                  originalCode := "function inner() \x7b  \x7d" } : DeclInfo))
      ∈ mainNode "/app/main.js" none 0 none progNest) ∧
    mapGet (findAllDeclarations "/app/main.js" progNest) "inner" =
      some { node := Ast.funcDecl "inner" [] .nil, type := "function",
             path := Ast.funcDecl "inner" [] .nil, source := "/app/main.js",
             parentFunction := none, depth := none, className := none,
             originalCode := "function inner() \x7b  \x7d" } := by
  exact ⟨by decide, rfl⟩

/-- A program with a single top-level function `n1` whose body contains
one immediately nested function declaration `n2` with an empty body. -/
def C9prog (n1 n2 : String) (ps1 ps2 : List String) : Ast :=
  Ast.cons (.funcDecl n1 ps1 (.cons (.funcDecl n2 ps2 .nil) .nil)) .nil

/-- C9 (amended): the nested-scope scan records a declaration
immediately nested in a top-level function with `depth = 1` (the counter
starts at 0 for the file scope and is passed incremented into each
nested scope), and the outer traversal subsequently overwrites the
record of a nested function declaration with a plain `function` record
carrying no depth and no parent, which is what the final table holds. -/
theorem C9_depthRecording (file n1 n2 : String) (ps1 ps2 : List String) :
    ((n2, ({ node := Ast.funcDecl n2 ps2 .nil, type := "nested-function",
             path := Ast.funcDecl n2 ps2 .nil, source := file,
             parentFunction := some n1, depth := some 1, className := none,
             originalCode := printNode (Ast.funcDecl n2 ps2 .nil) } : DeclInfo))
      ∈ mainNode file none 0 none (C9prog n1 n2 ps1 ps2)) ∧
    mapGet (findAllDeclarations file (C9prog n1 n2 ps1 ps2)) n2 =
      some { node := Ast.funcDecl n2 ps2 .nil, type := "function",
             path := Ast.funcDecl n2 ps2 .nil, source := file,
             parentFunction := none, depth := none, className := none,
             originalCode := printNode (Ast.funcDecl n2 ps2 .nil) } := by
  have hassign : mainNode file none 0 none (C9prog n1 n2 ps1 ps2) =
      [(n1, { node := .funcDecl n1 ps1 (.cons (.funcDecl n2 ps2 .nil) .nil),
              type := "function",
              path := .funcDecl n1 ps1 (.cons (.funcDecl n2 ps2 .nil) .nil), source := file,
              originalCode := printNode (.funcDecl n1 ps1 (.cons (.funcDecl n2 ps2 .nil) .nil)) }),
       (n2, { node := .funcDecl n2 ps2 .nil, type := "nested-function",
              path := .funcDecl n2 ps2 .nil, source := file,
              parentFunction := some n1, depth := some 1, className := none,
              originalCode := printNode (Ast.funcDecl n2 ps2 .nil) }),
       (n2, { node := .funcDecl n2 ps2 .nil, type := "function",
              path := .funcDecl n2 ps2 .nil, source := file,
              originalCode := printNode (Ast.funcDecl n2 ps2 .nil) })] := rfl
  constructor
  · rw [hassign]
    exact List.mem_cons_of_mem _ (List.mem_cons_self _ _)
  · have htbl : findAllDeclarations file (C9prog n1 n2 ps1 ps2) =
        buildTable (mainNode file none 0 none (C9prog n1 n2 ps1 ps2)) [] := rfl
    rw [htbl, hassign, buildTable_lastWrite]
    simp

/-- C10: when an import specifier resolves to the current file's own
path, the visit takes the unresolved branch: the result is exactly
`importFallback` (the branch run when resolution fails), the specifier
is appended to `unresolvedImports`, every bound local name maps to the
`import`-kind fallback record pointing at the import statement, and the
outcome coincides with that of an environment in which the specifier
does not resolve at all. -/
theorem C10_selfImportUnresolved (env env2 : Env) (cur : String) (st : ImportState)
    (s : String) (locals : List String)
    (hres : resolveImportPath env s cur = some cur) :
    processImport env cur st (.importDecl s locals) =
      importFallback cur st (.importDecl s locals) s locals ∧
    (processImport env cur st (.importDecl s locals)).unresolved = st.unresolved ++ [s] ∧
    (∀ l ∈ locals, mapGet (processImport env cur st (.importDecl s locals)).table l =
      some { node := .importDecl s locals, type := "import", path := .importDecl s locals,
             source := cur, originalCode := printNode (.importDecl s locals) }) ∧
    (resolveImportPath env2 s cur = none →
      processImport env2 cur st (.importDecl s locals) =
        importFallback cur st (.importDecl s locals) s locals) := by
  have h1 : processImport env cur st (.importDecl s locals) =
      importFallback cur st (.importDecl s locals) s locals := by
    unfold processImport
    simp only [hres]
    rw [if_neg (by simp)]
  refine ⟨h1, ?_, ?_, ?_⟩
  · rw [h1]
    rfl
  · intro l hl
    rw [h1]
    unfold importFallback
    exact mapGet_foldl_mapSet_const hl
  · intro hres2
    unfold processImport
    simp only [hres2]

/-- A concrete environment in which `./main.js` resolves to
`/app/main.js` itself. -/
def envSelf : Env :=
  { parseSource := fun _ => none,
    fileAst := fun _ => none,
    existsSync := fun _ => true,
    isRegularFile := fun _ => true,
    hostResolve := fun _ _ => none,
    dirname := fun _ => "/app",
    resolvePath := fun _ _ => "/app/main.js",
    joinIndex := fun b => b ++ "/index" }

/-- Witness for C10: in `envSelf` the specifier `./main.js` resolves to
the current file and is classified unresolved. -/
theorem C10_selfImportUnresolved_witness :
    processImport envSelf "/app/main.js" { table := [], resolved := [], unresolved := [] }
        (Ast.importDecl "./main.js" ["foo"]) =
      importFallback "/app/main.js" { table := [], resolved := [], unresolved := [] }
        (Ast.importDecl "./main.js" ["foo"]) "./main.js" ["foo"] :=
  (C10_selfImportUnresolved envSelf (envNone progImp) "/app/main.js"
    { table := [], resolved := [], unresolved := [] } "./main.js" ["foo"] rfl).1

end DepExtract

namespace DepExtract

/-- Witness for C7 in `envUtl`, where the relative specifier `./util`
hits the first extension candidate. -/
theorem C7_relativeResolution_witness :
    resolveImportPath envUtl "./util" "/app/main.js" =
      (if envUtl.existsSync (envUtl.resolvePath (envUtl.dirname "/app/main.js") "./util")
          && envUtl.isRegularFile (envUtl.resolvePath (envUtl.dirname "/app/main.js") "./util") then
        some (envUtl.resolvePath (envUtl.dirname "/app/main.js") "./util")
      else
        match (relCandidates envUtl
            (envUtl.resolvePath (envUtl.dirname "/app/main.js") "./util")).find? envUtl.existsSync with
        | some p => some p
        | none => envUtl.hostResolve "./util" (envUtl.dirname "/app/main.js")) :=
  C7_relativeResolution envUtl "./util" "/app/main.js" (by decide)

end DepExtract
